import Mathlib

/-!
# BooEdit command processor (ICS 45C, project 4)

A shallow embedding of `src/project4/app/CommandProcessor.cpp`: the classifier
`nextUserInteraction`, the dispatcher loop `CommandProcessor::run` with its
undo and redo stacks, and the two drain loops that run after the loop is left.

The collaborators that the file only includes (`Command`, `Editor`,
`EditorView`, `EditorException`, `Keypress`) are parameters of the
development: the editor is an arbitrary type `E`, a command object is an
arbitrary type `C` of object states, and the virtual functions of `Command`
are the fields of `CommandClasses`.  Command objects live in an explicit heap,
so that ownership, deletion and leaks are statements about the state.
-/

set_option autoImplicit false

/-! ## Collaborators -/

/-- Address of a heap-allocated `Command` object (a non-null `Command*`). -/
abbrev Ptr := Nat

/-- Value returned by `nextKeypress()`: the fields `ctrl` and `c` that
`nextUserInteraction` reads. -/
structure Keypress where
  ctrl : Bool
  c : Char
deriving DecidableEq, Repr

/-- The concrete command classes that `nextUserInteraction` instantiates with
`new` (lines 104-136). -/
inductive CommandClass where
  | InsertChar (c : Char)
  | CursorUp
  | CursorDown
  | CursorLeft
  | CursorRight
  | CursorHome
  | CursorEnd
  | NewLine
  | Backspace
  | DeleteLine
deriving DecidableEq, Repr

/-- Result of `command->execute(editor)`: it either returns, or throws an
`EditorException` whose `getReason()` is `reason`.  In both cases the object
and the editor are left in the states carried here. -/
inductive ExecResult (C E : Type) where
  | returned (obj : C) (editor : E)
  | threw (reason : String) (obj : C) (editor : E)
deriving DecidableEq, Repr

/-- Modelled from the spec: the `Command` interface (`Command.hpp` and the ten
subclasses are not part of the sources at hand).  `construct` is the
constructor of each class, `execute` performs the edit and may fail with a
domain error, `undo` reverses it and has no declared failure mode.  Both
virtual functions may update the object's own members as well as the editor. -/
structure CommandClasses (C E : Type) where
  construct : CommandClass → C
  execute : C → E → ExecResult C E
  undo : C → E → C × E

/-- Calls received by the `EditorView`, which `run` only drives. -/
inductive ViewCall where
  | refresh
  | showErrorMessage (message : String)
  | clearErrorMessage
deriving DecidableEq, Repr

/-- Modelled from the spec: the error line of the `EditorView` (the class is not
part of the sources at hand), which holds "an optional current error message".
It is determined by the calls the view has received, oldest first:
`showErrorMessage` sets it, `clearErrorMessage` removes it, `refresh` only
redraws. -/
def shownError (calls : List ViewCall) : Option String :=
  calls.foldl
    (fun current call =>
      match call with
      | ViewCall.refresh => current
      | ViewCall.showErrorMessage message => some message
      | ViewCall.clearErrorMessage => none)
    none

/-! ## The heap of command objects -/

/-- Command objects that are allocated and not yet deleted, with the members
of each, and the addresses handed to `delete` so far (oldest first). -/
structure Heap (C : Type) where
  live : List (Ptr × C)
  freed : List Ptr
deriving DecidableEq, Repr

namespace Heap

variable {C : Type}

/-- Addresses of the live objects. -/
def addrs (h : Heap C) : List Ptr := h.live.map Prod.fst

/-- Object members behind a pointer; `none` for a dangling pointer. -/
def deref (h : Heap C) (p : Ptr) : Option C :=
  match h.live.find? (fun q => q.1 == p) with
  | some q => some q.2
  | none => none

/-- Overwrite the members of the object at `p`. -/
def store (h : Heap C) (p : Ptr) (obj : C) : Heap C :=
  { h with live := h.live.map (fun q => if q.1 = p then (p, obj) else q) }

/-- Expression `new T(...)` when the allocator hands out address `p`. -/
def alloc (h : Heap C) (p : Ptr) (obj : C) : Heap C :=
  { h with live := (p, obj) :: h.live }

/-- Statement `delete p` for a non-null `p`; `none` when `p` is not a live
object (a double delete). -/
def delete (h : Heap C) (p : Ptr) : Option (Heap C) :=
  if p ∈ h.addrs then
    some { live := h.live.filter (fun q => q.1 != p), freed := h.freed ++ [p] }
  else none

end Heap

/-- The allocator behind `new`: the address it returns for a given heap. -/
abbrev Allocator (C : Type) := Heap C → Ptr

/-- An allocator never returns the address of a live object. -/
def Allocator.Fresh {C : Type} (newAddr : Allocator C) : Prop :=
  ∀ h : Heap C, newAddr h ∉ h.addrs

/-- A bump allocator: one past the largest live address. -/
def bumpAllocator {C : Type} : Allocator C :=
  fun h => h.addrs.foldr max 0 + 1

/-! ## Interactions (lines 36-86) -/

inductive UserInteractionType where
  | command
  | undo
  | redo
  | quit
deriving DecidableEq, Repr

/-- A `UserInteraction`; `command = none` is `nullptr`. -/
structure UserInteraction where
  type : UserInteractionType
  command : Option Ptr
deriving DecidableEq, Repr

def makeCommandInteraction (command : Option Ptr) : UserInteraction :=
  { type := UserInteractionType.command, command := command }

def makeUndoInteraction : UserInteraction :=
  { type := UserInteractionType.undo, command := none }

def makeRedoInteraction : UserInteraction :=
  { type := UserInteractionType.redo, command := none }

def makeQuitInteraction : UserInteraction :=
  { type := UserInteractionType.quit, command := none }

/-- Statement `return makeCommandInteraction(new T(...))` of
`nextUserInteraction`: allocate the object at the address the allocator hands
out, wrap the pointer, and leave the keypresses `rest` unread. -/
def returnNewCommand {C E : Type} (K : CommandClasses C E) (newAddr : Allocator C)
    (h : Heap C) (rest : List Keypress) (cls : CommandClass) :
    UserInteraction × List Keypress × Heap C :=
  (makeCommandInteraction (some (newAddr h)), rest, h.alloc (newAddr h) (K.construct cls))

/-- Function `nextUserInteraction` (lines 92-139) over the keypresses still to
come.  It returns the interaction, the keypresses left and the heap after any
allocation; `none` when the input ends, where the source blocks in
`nextKeypress()`. -/
def nextUserInteraction {C E : Type} (K : CommandClasses C E) (newAddr : Allocator C) :
    List Keypress → Heap C → Option (UserInteraction × List Keypress × Heap C)
  | [], _ => none
  | keypress :: rest, h =>
    if keypress.ctrl then
      match keypress.c with
      | 'X' => some (makeQuitInteraction, rest, h)
      | 'O' => some (returnNewCommand K newAddr h rest CommandClass.CursorRight)
      | 'U' => some (returnNewCommand K newAddr h rest CommandClass.CursorLeft)
      | 'Z' => some (makeUndoInteraction, rest, h)
      | 'A' => some (makeRedoInteraction, rest, h)
      | 'I' => some (returnNewCommand K newAddr h rest CommandClass.CursorUp)
      | 'K' => some (returnNewCommand K newAddr h rest CommandClass.CursorDown)
      | 'Y' => some (returnNewCommand K newAddr h rest CommandClass.CursorHome)
      | 'P' => some (returnNewCommand K newAddr h rest CommandClass.CursorEnd)
      | 'J' => some (returnNewCommand K newAddr h rest CommandClass.NewLine)
      | 'M' => some (returnNewCommand K newAddr h rest CommandClass.NewLine)
      | 'H' => some (returnNewCommand K newAddr h rest CommandClass.Backspace)
      | 'D' => some (returnNewCommand K newAddr h rest CommandClass.DeleteLine)
      | _ => nextUserInteraction K newAddr rest h
    else
      some (returnNewCommand K newAddr h rest (CommandClass.InsertChar keypress.c))

/-! ## The dispatcher (lines 146-231) -/

/-- Everything `run` reads and writes: the editor and view it holds by
reference, the heap, and its two local stacks (top first). -/
structure State (C E : Type) where
  editor : E
  view : List ViewCall
  heap : Heap C
  undoStack : List UserInteraction
  redoStack : List UserInteraction
deriving DecidableEq, Repr

/-- How one pass through the body of `while (true)` ends. -/
inductive Outcome (C E : Type) where
  /-- The body ran to its end; the loop goes on. -/
  | next (s : State C E)
  /-- Statement `break` was reached. -/
  | exit (s : State C E)
  /-- An `EditorException` left the body uncaught and propagates out of `run`. -/
  | threw (reason : String) (s : State C E)
  /-- A null or dangling `Command*` was dereferenced. -/
  | undefined
deriving DecidableEq, Repr

namespace CommandProcessor

variable {C E : Type}

/-- Body of the loop once `nextUserInteraction` has returned `interaction`
(lines 157-215). -/
def loopBody (K : CommandClasses C E) (s : State C E) (interaction : UserInteraction) :
    Outcome C E :=
  match interaction.type with
  | UserInteractionType.quit => Outcome.exit s
  | UserInteractionType.undo =>
    match s.undoStack with
    | [] =>
      Outcome.next { s with view := s.view ++ [ViewCall.showErrorMessage "Undo Empty", ViewCall.refresh] }
    | undoInteraction :: rest =>
      match undoInteraction.command with
      | none => Outcome.undefined
      | some p =>
        match s.heap.deref p with
        | none => Outcome.undefined
        | some obj =>
          Outcome.next
            { editor := (K.undo obj s.editor).2
              view := s.view ++ [ViewCall.clearErrorMessage, ViewCall.refresh]
              heap := s.heap.store p (K.undo obj s.editor).1
              undoStack := rest
              redoStack := undoInteraction :: s.redoStack }
  | UserInteractionType.redo =>
    match s.redoStack with
    | [] =>
      Outcome.next { s with view := s.view ++ [ViewCall.showErrorMessage "Redo Empty", ViewCall.refresh] }
    | redoInteraction :: rest =>
      match redoInteraction.command with
      | none => Outcome.undefined
      | some p =>
        match s.heap.deref p with
        | none => Outcome.undefined
        | some obj =>
          match K.execute obj s.editor with
          | ExecResult.returned obj' editor' =>
            Outcome.next
              { editor := editor'
                view := s.view ++ [ViewCall.clearErrorMessage, ViewCall.refresh]
                heap := s.heap.store p obj'
                undoStack := redoInteraction :: s.undoStack
                redoStack := rest }
          | ExecResult.threw reason obj' editor' =>
            Outcome.threw reason
              { editor := editor'
                view := s.view
                heap := s.heap.store p obj'
                undoStack := redoInteraction :: s.undoStack
                redoStack := rest }
  | UserInteractionType.command =>
    match interaction.command with
    | none => Outcome.undefined
    | some p =>
      match s.heap.deref p with
      | none => Outcome.undefined
      | some obj =>
        match K.execute obj s.editor with
        | ExecResult.returned obj' editor' =>
          Outcome.next
            { editor := editor'
              view := s.view ++ [ViewCall.clearErrorMessage, ViewCall.refresh]
              heap := s.heap.store p obj'
              undoStack := interaction :: s.undoStack
              redoStack := s.redoStack }
        | ExecResult.threw reason obj' editor' =>
          Outcome.next
            { editor := editor'
              view := s.view ++ [ViewCall.showErrorMessage reason, ViewCall.refresh]
              heap := s.heap.store p obj'
              undoStack := s.undoStack
              redoStack := s.redoStack }

/-- One of the two loops at lines 218-230: delete the command of each entry,
top first, popping it.  Statement `delete nullptr` does nothing; `none` when a
pointer that is not live is deleted. -/
def drainStack : List UserInteraction → Heap C → Option (Heap C)
  | [], h => some h
  | interaction :: rest, h =>
    match interaction.command with
    | none => drainStack rest h
    | some p =>
      match h.delete p with
      | none => none
      | some h' => drainStack rest h'

/-- How a call of `run` ends. -/
inductive RunResult (C E : Type) where
  /-- Function `run` returned; both stacks are drained. -/
  | returned (s : State C E)
  /-- An `EditorException` propagated out of `run`, leaving this state. -/
  | threw (reason : String) (s : State C E)
  /-- The input ended: `run` waits in `nextKeypress()` in this state. -/
  | awaiting (s : State C E)
  /-- A null or dangling pointer was dereferenced or deleted. -/
  | undefined
  /-- The iteration bound of the model was reached. -/
  | outOfFuel
deriving DecidableEq, Repr

/-- Lines 218-230, then the return. -/
def drain (s : State C E) : RunResult C E :=
  match drainStack s.undoStack s.heap with
  | none => RunResult.undefined
  | some h =>
    match drainStack s.redoStack h with
    | none => RunResult.undefined
    | some h' =>
      RunResult.returned { s with heap := h', undoStack := [], redoStack := [] }

/-- The loop of `run` from line 153 on, followed by the drain; `fuel` bounds
the number of passes. -/
def runLoop (K : CommandClasses C E) (newAddr : Allocator C) :
    Nat → State C E → List Keypress → RunResult C E
  | 0, _, _ => RunResult.outOfFuel
  | fuel + 1, s, keys =>
    match nextUserInteraction K newAddr keys s.heap with
    | none => RunResult.awaiting s
    | some (interaction, rest, h) =>
      match loopBody K { s with heap := h } interaction with
      | Outcome.next s' => runLoop K newAddr fuel s' rest
      | Outcome.exit s' => drain s'
      | Outcome.threw reason s' => RunResult.threw reason s'
      | Outcome.undefined => RunResult.undefined

/-- State in which the loop is entered: empty stacks, after the first
`view.refresh()` (lines 148-151). -/
def start (editor : E) (view : List ViewCall) (heap : Heap C) : State C E :=
  { editor := editor
    view := view ++ [ViewCall.refresh]
    heap := heap
    undoStack := []
    redoStack := [] }

/-- The loop continued from state `s` on the keypresses `keys`.  Every pass
reads at least one keypress, so `keys.length + 1` passes are enough. -/
def resume (K : CommandClasses C E) (newAddr : Allocator C) (s : State C E)
    (keys : List Keypress) : RunResult C E :=
  runLoop K newAddr (keys.length + 1) s keys

/-- Function `CommandProcessor::run` on the keypresses `keys`. -/
def run (K : CommandClasses C E) (newAddr : Allocator C) (editor : E) (view : List ViewCall)
    (heap : Heap C) (keys : List Keypress) : RunResult C E :=
  resume K newAddr (start editor view heap) keys

/-- A state in which `run` can be waiting for the next keypress. -/
def Reachable (K : CommandClasses C E) (newAddr : Allocator C) (s : State C E) : Prop :=
  ∃ (editor : E) (view : List ViewCall) (heap : Heap C) (keys : List Keypress),
    run K newAddr editor view heap keys = RunResult.awaiting s

end CommandProcessor

/-! ## Vocabulary of the statements -/

/-- Keypress Ctrl+Z, which `nextUserInteraction` turns into an undo. -/
def undoKey : Keypress := { ctrl := true, c := 'Z' }

/-- Keypress Ctrl+A, which `nextUserInteraction` turns into a redo. -/
def redoKey : Keypress := { ctrl := true, c := 'A' }

/-- Keypress Ctrl+X, which `nextUserInteraction` turns into a quit. -/
def quitKey : Keypress := { ctrl := true, c := 'X' }

/-- Pointers held by a stack, top first (null pointers left out). -/
def stackPtrs (stack : List UserInteraction) : List Ptr :=
  stack.filterMap (fun i => i.command)

/-- Assumption on the command classes: `undo` exactly reverses the last
successful `execute` of the same object. -/
def UndoExact {C E : Type} (K : CommandClasses C E) : Prop :=
  ∀ (obj : C) (e : E) (obj' : C) (e' : E),
    K.execute obj e = ExecResult.returned obj' e' → (K.undo obj' e').2 = e

/-- Assumption on the command classes: `execute` is deterministic in the
document.  A command that was executed on document `e` and undone, when
executed on `e` again, returns again and produces the same document. -/
def ExecuteRepeats {C E : Type} (K : CommandClasses C E) : Prop :=
  ∀ (obj : C) (e : E) (obj' : C) (e' : E),
    K.execute obj e = ExecResult.returned obj' e' →
      ∃ obj'', K.execute (K.undo obj' e').1 e = ExecResult.returned obj'' e'

namespace CommandProcessor

variable {C E : Type}

/-- Each keypress of `keys`, read in turn from state `s` on, is classified as a
command interaction whose `execute` returns normally. -/
def ExecutesAll (K : CommandClasses C E) (newAddr : Allocator C) :
    State C E → List Keypress → Prop
  | _, [] => True
  | s, key :: keys =>
    ∃ (p : Ptr) (h : Heap C) (obj obj' : C) (editor' : E) (s' : State C E),
      nextUserInteraction K newAddr [key] s.heap
          = some (makeCommandInteraction (some p), [], h) ∧
        h.deref p = some obj ∧
        K.execute obj s.editor = ExecResult.returned obj' editor' ∧
        loopBody K { s with heap := h } (makeCommandInteraction (some p)) = Outcome.next s' ∧
        ExecutesAll K newAddr s' keys

/-- Ownership discipline of the two stacks: every entry is a command
interaction whose pointer is a live object, and no pointer is held twice. -/
structure Owned (s : State C E) : Prop where
  isCommand : ∀ i ∈ s.undoStack ++ s.redoStack, i.type = UserInteractionType.command
  live : ∀ i ∈ s.undoStack ++ s.redoStack, ∃ p, i.command = some p ∧ p ∈ s.heap.addrs
  nodup : ((s.undoStack ++ s.redoStack).map (fun i => i.command)).Nodup

/-- History recorded by the entries `entries` (top first) of the undo stack:
the object of each entry is as its last successful `execute` left it, that
`execute` produced the document the next entry up was executed on (the current
document `e` for the top entry), and the bottom entry was executed on `d`. -/
def Trail (K : CommandClasses C E) (h : Heap C) : List UserInteraction → E → E → Prop
  | [], e, d => e = d
  | i :: rest, e, d =>
    ∃ (p : Ptr) (obj' obj0 : C) (e0 : E),
      i.command = some p ∧ h.deref p = some obj' ∧
        K.execute obj0 e0 = ExecResult.returned obj' e ∧ Trail K h rest e0 d

/-- Redoing the entries `entries` (top first) in turn from document `e` never
fails and ends in document `target`. -/
def Replays (K : CommandClasses C E) : Heap C → List UserInteraction → E → E → Prop
  | _, [], e, target => e = target
  | h, i :: rest, e, target =>
    ∃ (p : Ptr) (obj obj' : C) (e' : E),
      i.command = some p ∧ h.deref p = some obj ∧
        K.execute obj e = ExecResult.returned obj' e' ∧
        Replays K (h.store p obj') rest e' target

end CommandProcessor

/-! ## A small instance for concrete runs -/

/-- Modelled from the spec: a one-line document with a cursor column (the
`Editor` class is not part of the sources at hand). -/
structure LineEditor where
  text : List Char
  column : Nat
deriving DecidableEq, Repr

/-- Members of a command object of the instance: its class and the document it
was last executed on. -/
structure LineCommand where
  cls : CommandClass
  saved : Option LineEditor
deriving DecidableEq, Repr

/-- Modelled from the spec: the two command classes whose behaviour the spec
states (the classes are not part of the sources at hand).  `InsertChar`
inserts its character at the cursor and advances the cursor, `CursorLeft` moves
one column left and fails at column 0 leaving the document as it is, and
`undo` puts back the document that `execute` saw.  The other classes are not
modelled: their `execute` fails. -/
def lineCommands : CommandClasses LineCommand LineEditor where
  construct := fun cls => { cls := cls, saved := none }
  execute := fun obj e =>
    match obj.cls with
    | CommandClass.InsertChar c =>
      ExecResult.returned { obj with saved := some e }
        { text := e.text.take e.column ++ c :: e.text.drop e.column, column := e.column + 1 }
    | CommandClass.CursorLeft =>
      if e.column = 0 then ExecResult.threw "Already at beginning" obj e
      else ExecResult.returned { obj with saved := some e } { e with column := e.column - 1 }
    | _ => ExecResult.threw "not modelled" obj e
  undo := fun obj e =>
    match obj.saved with
    | some e0 => ({ obj with saved := none }, e0)
    | none => (obj, e)

/-- The empty heap. -/
def Heap.empty {C : Type} : Heap C := { live := [], freed := [] }

/-- The empty document with the cursor at column 0. -/
def LineEditor.blank : LineEditor := { text := [], column := 0 }

/-- State in which a run on the blank document waits after `a` and `b` were
typed and Ctrl+Z was pressed once: `a` is in the document, its command is on
the undo stack and the command of `b` is on the redo stack. -/
def LineEditor.afterUndo : State LineCommand LineEditor :=
  { editor := { text := ['a'], column := 1 }
    view := [ViewCall.refresh, ViewCall.clearErrorMessage, ViewCall.refresh,
      ViewCall.clearErrorMessage, ViewCall.refresh, ViewCall.clearErrorMessage, ViewCall.refresh]
    heap :=
      { live := [(2, { cls := CommandClass.InsertChar 'b', saved := none }),
          (1, { cls := CommandClass.InsertChar 'a', saved := some LineEditor.blank })]
        freed := [] }
    undoStack := [makeCommandInteraction (some 1)]
    redoStack := [makeCommandInteraction (some 2)] }

/-- State in which a run on the blank document waits after a failing Ctrl+U,
`a`, an undo, `b` and a redo: the redo has executed the command of `a` again,
on the document that `b` had changed. -/
def LineEditor.afterRedo : State LineCommand LineEditor :=
  { editor := { text := ['b', 'a'], column := 2 }
    view := [ViewCall.refresh, ViewCall.showErrorMessage "Already at beginning",
      ViewCall.refresh, ViewCall.clearErrorMessage, ViewCall.refresh,
      ViewCall.clearErrorMessage, ViewCall.refresh, ViewCall.clearErrorMessage,
      ViewCall.refresh, ViewCall.clearErrorMessage, ViewCall.refresh]
    heap :=
      { live := [(3, { cls := CommandClass.InsertChar 'b', saved := some LineEditor.blank }),
          (2, { cls := CommandClass.InsertChar 'a',
                saved := some { text := ['b'], column := 1 } }),
          (1, { cls := CommandClass.CursorLeft, saved := none })]
        freed := [] }
    undoStack := [makeCommandInteraction (some 2), makeCommandInteraction (some 3)]
    redoStack := [] }

/-! ## Vocabulary of the later statements -/

/-- The control codes that `nextUserInteraction` reacts to, as a set: the
labels of its `switch`. -/
def recognized (c : Char) : Bool :=
  c ∈ ['X', 'O', 'U', 'Z', 'A', 'I', 'K', 'Y', 'P', 'J', 'M', 'H', 'D']

/-- What a keypress is turned into, whatever the heap: the type of the
interaction and, for a command, the class that is instantiated.  The result
of `nextUserInteraction` on heap `h` with this classification is the
interaction of type `ty` whose command is the newly allocated object of class
`cls` (or `nullptr` when there is none). -/
def classified {C E : Type} (K : CommandClasses C E) (newAddr : Allocator C)
    (ty : UserInteractionType) (cls : Option CommandClass) (rest : List Keypress)
    (h : Heap C) : UserInteraction × List Keypress × Heap C :=
  match cls with
  | none => ({ type := ty, command := none }, rest, h)
  | some k => ({ type := ty, command := some (newAddr h) }, rest,
      h.alloc (newAddr h) (K.construct k))

/-- Assumption on the command classes: an `execute` that fails leaves the
document as it found it. -/
def FailureKeeps {C E : Type} (K : CommandClasses C E) : Prop :=
  ∀ (obj : C) (e : E) (reason : String) (obj' : C) (e' : E),
    K.execute obj e = ExecResult.threw reason obj' e' → e' = e

namespace CommandProcessor

variable {C E : Type}

/-- Whether `interaction`, read in state `s`, is a command interaction whose
`execute` returns normally. -/
def executeReturns (K : CommandClasses C E) (s : State C E) (interaction : UserInteraction) :
    Bool :=
  match interaction.type, interaction.command with
  | UserInteractionType.command, some p =>
    match s.heap.deref p with
    | some obj =>
      match K.execute obj s.editor with
      | ExecResult.returned _ _ => true
      | ExecResult.threw _ _ _ => false
    | none => false
  | _, _ => false

/-- The passes of the loop that ran to their end, oldest first: for each, the
state in which the interaction was handled and the interaction.  It follows
`runLoop` and stops where the loop stops. -/
def history (K : CommandClasses C E) (newAddr : Allocator C) :
    Nat → State C E → List Keypress → List (State C E × UserInteraction)
  | 0, _, _ => []
  | fuel + 1, s, keys =>
    match nextUserInteraction K newAddr keys s.heap with
    | none => []
    | some (interaction, rest, h) =>
      match loopBody K { s with heap := h } interaction with
      | Outcome.next s' => ({ s with heap := h }, interaction) :: history K newAddr fuel s' rest
      | Outcome.exit _ => []
      | Outcome.threw _ _ => []
      | Outcome.undefined => []

/-- Number of command interactions executed successfully while `run` read the
keypresses `keys`. -/
def successes (K : CommandClasses C E) (newAddr : Allocator C) (editor : E)
    (view : List ViewCall) (heap : Heap C) (keys : List Keypress) : Nat :=
  ((history K newAddr (keys.length + 1) (start editor view heap) keys).filter
    (fun pass => executeReturns K pass.1 pass.2)).length

/-- Number of interactions that `run` handled before it stopped reading the
keypresses `keys`. -/
def handled (K : CommandClasses C E) (newAddr : Allocator C) (editor : E)
    (view : List ViewCall) (heap : Heap C) (keys : List Keypress) : Nat :=
  (history K newAddr (keys.length + 1) (start editor view heap) keys).length

end CommandProcessor

/-- The presentation calls made by passes whose first calls are `firsts`: each
is followed by a `refresh`. -/
def withRefresh : List ViewCall → List ViewCall
  | [] => []
  | call :: firsts => call :: ViewCall.refresh :: withRefresh firsts

/-! ## The document of the scenario -/

/-- Modelled from the spec: the document of the concrete scenario, a text
buffer and a cursor given as line and column (the `Editor` class is not part
of the sources at hand). -/
structure Document where
  buffer : List Char
  cursor : Nat × Nat
deriving DecidableEq, Repr

/-- Modelled from the spec: the empty buffer with the cursor at (0,0). -/
def Document.empty : Document := { buffer := [], cursor := (0, 0) }

/-- Modelled from the spec: `InsertChar(c)` as the scenario describes it (the
class is not part of the sources at hand).  Its `execute` inserts `c` at the
cursor and advances the cursor by one column; its `undo` removes that
character, the one before the cursor, and moves the cursor back.  The object
has no members besides its class.  The other classes are not modelled: their
`execute` fails and their `undo` does nothing. -/
def insertCommands : CommandClasses CommandClass Document where
  construct := fun cls => cls
  execute := fun obj e =>
    match obj with
    | CommandClass.InsertChar c =>
      ExecResult.returned obj
        { buffer := e.buffer.take e.cursor.2 ++ c :: e.buffer.drop e.cursor.2
          cursor := (e.cursor.1, e.cursor.2 + 1) }
    | _ => ExecResult.threw "not modelled" obj e
  undo := fun obj e =>
    match obj with
    | CommandClass.InsertChar _ =>
      (obj, { buffer := e.buffer.eraseIdx (e.cursor.2 - 1)
              cursor := (e.cursor.1, e.cursor.2 - 1) })
    | _ => (obj, e)

/-- Classes of the commands a stack holds, bottom first (the order in which
the scenario writes a stack). -/
def stackClasses {C : Type} (h : Heap C) (stack : List UserInteraction) : List (Option C) :=
  (stack.map (fun i => i.command.bind h.deref)).reverse

/-! ## Further vocabulary -/

/-- A command set that fits the `Command` interface and whose failing
`execute` changes the document before it throws.  The document is a counter:
`InsertChar` adds one and its `undo` takes one away, so that `undo` exactly
reverses `execute`; every other class adds 100 and then fails. -/
def counterCommands : CommandClasses CommandClass Nat where
  construct := fun cls => cls
  execute := fun obj e =>
    match obj with
    | CommandClass.InsertChar _ => ExecResult.returned obj (e + 1)
    | _ => ExecResult.threw "failed" obj (e + 100)
  undo := fun obj e =>
    match obj with
    | CommandClass.InsertChar _ => (obj, e - 1)
    | _ => (obj, e)

/-- What a single keypress is read as: the type of the interaction it gives,
or `none` for a control code that is skipped.  Without Ctrl a keypress is a
command; with Ctrl, `X` is quit, `Z` undo, `A` redo, the other recognized codes
are commands. -/
def keyType (key : Keypress) : Option UserInteractionType :=
  if key.ctrl then
    if key.c = 'X' then some UserInteractionType.quit
    else if key.c = 'Z' then some UserInteractionType.undo
    else if key.c = 'A' then some UserInteractionType.redo
    else if recognized key.c then some UserInteractionType.command
    else none
  else some UserInteractionType.command

/-- Number of interactions other than quit that the keypresses give before
their first quit; `none` when they give no quit.  It is read off the input
alone. -/
def interactionsBeforeQuit : List Keypress → Option Nat
  | [] => none
  | key :: keys =>
    match keyType key with
    | none => interactionsBeforeQuit keys
    | some UserInteractionType.quit => some 0
    | some _ => (interactionsBeforeQuit keys).map (fun n => n + 1)

/-! ## Heap lemmas -/

namespace Heap

variable {C : Type}

theorem addrs_store (h : Heap C) (p : Ptr) (obj : C) : (h.store p obj).addrs = h.addrs := by
  cases h with
  | mk live freed =>
    simp only [store, addrs, List.map_map]
    apply List.map_congr_left
    intro q _
    by_cases hq : q.1 = p <;> simp [hq]

theorem freed_store (h : Heap C) (p : Ptr) (obj : C) : (h.store p obj).freed = h.freed := rfl

theorem addrs_alloc (h : Heap C) (p : Ptr) (obj : C) : (h.alloc p obj).addrs = p :: h.addrs := rfl

theorem freed_alloc (h : Heap C) (p : Ptr) (obj : C) : (h.alloc p obj).freed = h.freed := rfl

theorem deref_alloc (h : Heap C) (p q : Ptr) (obj : C) :
    (h.alloc p obj).deref q = if q = p then some obj else h.deref q := by
  by_cases hq : q = p
  · subst hq
    simp [alloc, deref]
  · have hne : ¬ p = q := fun e => hq e.symm
    simp [alloc, deref, List.find?_cons, hq, hne]

theorem deref_store (h : Heap C) (p q : Ptr) (obj : C) :
    (h.store p obj).deref q = if q = p then (h.deref p).map (fun _ => obj) else h.deref q := by
  cases h with
  | mk live freed =>
    induction live with
    | nil => simp [store, deref]
    | cons x xs ih =>
      simp only [store, deref] at ih ⊢
      by_cases hx : x.1 = p
      · by_cases hq : q = p
        · subst hq
          simp [List.find?_cons, hx]
        · have hne : ¬ p = q := fun e => hq e.symm
          have hxq : ¬ x.1 = q := fun e => hq (e.symm.trans hx)
          simpa [List.find?_cons, hx, hq, hne, hxq] using ih
      · by_cases hq : q = p
        · subst hq
          simpa [List.find?_cons, hx] using ih
        · by_cases hxq : x.1 = q
          · simp [List.find?_cons, hx, hq, hxq]
          · simpa [List.find?_cons, hx, hq, hxq] using ih

theorem mem_addrs_iff (h : Heap C) (p : Ptr) : p ∈ h.addrs ↔ ∃ obj, h.deref p = some obj := by
  cases h with
  | mk live freed =>
    induction live with
    | nil => simp [addrs, deref]
    | cons x xs ih =>
      simp only [addrs, deref] at ih ⊢
      by_cases hx : x.1 = p
      · simp [List.find?_cons, hx]
      · have hne : ¬ p = x.1 := fun e => hx e.symm
        simpa [List.find?_cons, hx, hne] using ih

end Heap

/-! ## The classifier -/

section Classifier

variable {C E : Type} (K : CommandClasses C E) (newAddr : Allocator C)

theorem nextUserInteraction_length :
    ∀ (keys : List Keypress) (h : Heap C) (i : UserInteraction) (rest : List Keypress)
      (h' : Heap C), nextUserInteraction K newAddr keys h = some (i, rest, h') →
      rest.length < keys.length := by
  intro keys
  induction keys with
  | nil => intro h i rest h' hn; simp [nextUserInteraction] at hn
  | cons key keys ih =>
    intro h i rest h' hn
    rw [nextUserInteraction] at hn
    split at hn
    · split at hn
      all_goals first
        | (simp only [Option.some.injEq, Prod.mk.injEq, returnNewCommand] at hn
           obtain ⟨_, rfl, _⟩ := hn
           simp)
        | (have hrec := ih _ _ _ _ hn
           simp only [List.length_cons]
           omega)
    · simp only [Option.some.injEq, Prod.mk.injEq, returnNewCommand] at hn
      obtain ⟨_, rfl, _⟩ := hn
      simp

/-- What `nextUserInteraction` can return: an undo, redo or quit without
touching the heap, or a command whose object was just allocated. -/
theorem nextUserInteraction_cases :
    ∀ (keys : List Keypress) (h : Heap C) (i : UserInteraction) (rest : List Keypress)
      (h' : Heap C), nextUserInteraction K newAddr keys h = some (i, rest, h') →
      (h' = h ∧ i.command = none ∧ i.type ≠ UserInteractionType.command) ∨
      (∃ cls, i = makeCommandInteraction (some (newAddr h)) ∧
        h' = h.alloc (newAddr h) (K.construct cls)) := by
  intro keys
  induction keys with
  | nil => intro h i rest h' hn; simp [nextUserInteraction] at hn
  | cons key keys ih =>
    intro h i rest h' hn
    rw [nextUserInteraction] at hn
    split at hn
    · split at hn
      all_goals first
        | exact ih _ _ _ _ hn
        | (simp only [Option.some.injEq, Prod.mk.injEq, returnNewCommand] at hn
           obtain ⟨rfl, _, rfl⟩ := hn
           first
             | (left; simp [makeQuitInteraction, makeUndoInteraction, makeRedoInteraction]; done)
             | (right; exact ⟨_, rfl, rfl⟩))
    · simp only [Option.some.injEq, Prod.mk.injEq, returnNewCommand] at hn
      obtain ⟨rfl, _, rfl⟩ := hn
      right
      exact ⟨_, rfl, rfl⟩

theorem nextUserInteraction_cons (key : Keypress) (rest : List Keypress) (h : Heap C) :
    nextUserInteraction K newAddr (key :: rest) h =
      match nextUserInteraction K newAddr [key] h with
      | some (i, _, h') => some (i, rest, h')
      | none => nextUserInteraction K newAddr rest h := by
  rw [nextUserInteraction, nextUserInteraction]
  by_cases hc : key.ctrl = true
  · rw [if_pos hc, if_pos hc]
    split <;> simp [returnNewCommand, nextUserInteraction]
  · rw [if_neg hc, if_neg hc]
    simp [returnNewCommand]

theorem nextUserInteraction_single (key : Keypress) (h : Heap C) (i : UserInteraction)
    (h' : Heap C) (hn : nextUserInteraction K newAddr [key] h = some (i, [], h'))
    (rest : List Keypress) :
    nextUserInteraction K newAddr (key :: rest) h = some (i, rest, h') := by
  rw [nextUserInteraction_cons, hn]

theorem nextUserInteraction_append_some :
    ∀ (keys more : List Keypress) (h : Heap C) (i : UserInteraction) (rest : List Keypress)
      (h' : Heap C), nextUserInteraction K newAddr keys h = some (i, rest, h') →
      nextUserInteraction K newAddr (keys ++ more) h = some (i, rest ++ more, h') := by
  intro keys
  induction keys with
  | nil => intro more h i rest h' hn; simp [nextUserInteraction] at hn
  | cons key keys ih =>
    intro more h i rest h' hn
    rw [nextUserInteraction_cons] at hn
    rw [List.cons_append, nextUserInteraction_cons]
    cases h1 : nextUserInteraction K newAddr [key] h with
    | none =>
      rw [h1] at hn
      exact ih more h i rest h' hn
    | some r =>
      obtain ⟨j, l, g⟩ := r
      rw [h1] at hn
      simp only [Option.some.injEq, Prod.mk.injEq] at hn ⊢
      obtain ⟨rfl, rfl, rfl⟩ := hn
      exact ⟨rfl, rfl, rfl⟩

theorem nextUserInteraction_append_none :
    ∀ (keys more : List Keypress) (h : Heap C), nextUserInteraction K newAddr keys h = none →
      nextUserInteraction K newAddr (keys ++ more) h = nextUserInteraction K newAddr more h := by
  intro keys
  induction keys with
  | nil => intro more h _; rfl
  | cons key keys ih =>
    intro more h hn
    rw [nextUserInteraction_cons] at hn
    rw [List.cons_append, nextUserInteraction_cons]
    cases h1 : nextUserInteraction K newAddr [key] h with
    | none =>
      rw [h1] at hn
      exact ih more h hn
    | some r =>
      obtain ⟨j, l, g⟩ := r
      rw [h1] at hn
      simp at hn

theorem nextUserInteraction_undoKey (rest : List Keypress) (h : Heap C) :
    nextUserInteraction K newAddr (undoKey :: rest) h = some (makeUndoInteraction, rest, h) :=
  rfl

theorem nextUserInteraction_redoKey (rest : List Keypress) (h : Heap C) :
    nextUserInteraction K newAddr (redoKey :: rest) h = some (makeRedoInteraction, rest, h) :=
  rfl

theorem nextUserInteraction_quitKey (rest : List Keypress) (h : Heap C) :
    nextUserInteraction K newAddr (quitKey :: rest) h = some (makeQuitInteraction, rest, h) :=
  rfl

end Classifier

/-! ## The loop -/

namespace CommandProcessor

variable {C E : Type} (K : CommandClasses C E) (newAddr : Allocator C)

theorem runLoop_fuel :
    ∀ (f g : Nat) (s : State C E) (keys : List Keypress), keys.length < f → keys.length < g →
      runLoop K newAddr f s keys = runLoop K newAddr g s keys := by
  intro f
  induction f with
  | zero => intro g s keys hf; omega
  | succ f ih =>
    intro g s keys hf hg
    cases g with
    | zero => omega
    | succ g =>
      simp only [runLoop]
      cases hn : nextUserInteraction K newAddr keys s.heap with
      | none => rfl
      | some r =>
        obtain ⟨i, rest, h⟩ := r
        have hlen := nextUserInteraction_length K newAddr keys s.heap i rest h hn
        dsimp only
        cases hb : loopBody K { s with heap := h } i with
        | next s' => exact ih g s' rest (by omega) (by omega)
        | exit s' => rfl
        | threw r s' => rfl
        | undefined => rfl

theorem resume_nil (s : State C E) : resume K newAddr s [] = RunResult.awaiting s := rfl

/-- One pass of the loop, in terms of the interaction that is read. -/
theorem resume_pass (s : State C E) (keys rest : List Keypress) (i : UserInteraction)
    (h : Heap C) (hn : nextUserInteraction K newAddr keys s.heap = some (i, rest, h)) :
    resume K newAddr s keys =
      match loopBody K { s with heap := h } i with
      | Outcome.next s' => resume K newAddr s' rest
      | Outcome.exit s' => drain s'
      | Outcome.threw reason s' => RunResult.threw reason s'
      | Outcome.undefined => RunResult.undefined := by
  have hlen := nextUserInteraction_length K newAddr keys s.heap i rest h hn
  simp only [resume, runLoop, hn]
  cases hb : loopBody K { s with heap := h } i with
  | next s' =>
    exact runLoop_fuel K newAddr keys.length (rest.length + 1) s' rest (by omega) (by omega)
  | exit s' => rfl
  | threw r s' => rfl
  | undefined => rfl

theorem resume_next (s s' : State C E) (keys rest : List Keypress) (i : UserInteraction)
    (h : Heap C) (hn : nextUserInteraction K newAddr keys s.heap = some (i, rest, h))
    (hb : loopBody K { s with heap := h } i = Outcome.next s') :
    resume K newAddr s keys = resume K newAddr s' rest := by
  rw [resume_pass K newAddr s keys rest i h hn, hb]

theorem drain_ne_outOfFuel (s : State C E) : drain s ≠ RunResult.outOfFuel := by
  unfold drain
  split
  · simp
  · split <;> simp

/-- The iteration bound of `resume` is never reached. -/
theorem runLoop_ne_outOfFuel :
    ∀ (f : Nat) (s : State C E) (keys : List Keypress), keys.length < f →
      runLoop K newAddr f s keys ≠ RunResult.outOfFuel := by
  intro f
  induction f with
  | zero => intro s keys hf; omega
  | succ f ih =>
    intro s keys hf
    simp only [runLoop]
    cases hn : nextUserInteraction K newAddr keys s.heap with
    | none => simp
    | some r =>
      obtain ⟨i, rest, h⟩ := r
      have hlen := nextUserInteraction_length K newAddr keys s.heap i rest h hn
      dsimp only
      cases hb : loopBody K { s with heap := h } i with
      | next s' => exact ih s' rest (by omega)
      | exit s' => exact drain_ne_outOfFuel s'
      | threw r s' => simp
      | undefined => simp

theorem drain_ne_awaiting (s s' : State C E) : drain s ≠ RunResult.awaiting s' := by
  unfold drain
  split
  · simp
  · split <;> simp

/-- Reading the keypresses `keys` and then `more`: when the loop is waiting in
state `s'` after `keys`, it goes on from `s'` with `more`. -/
theorem resume_append :
    ∀ (n : Nat) (keys : List Keypress), keys.length = n → ∀ (s s' : State C E)
      (more : List Keypress),
      resume K newAddr s keys = RunResult.awaiting s' →
      resume K newAddr s (keys ++ more) = resume K newAddr s' more := by
  intro n
  induction n using Nat.strong_induction_on with
  | _ n ih =>
    intro keys hlen s s' more hk
    cases hn : nextUserInteraction K newAddr keys s.heap with
    | none =>
      have hs : s' = s := by
        simp only [resume, runLoop, hn] at hk
        exact (RunResult.awaiting.inj hk).symm
      subst hs
      have hm := nextUserInteraction_append_none K newAddr keys more s'.heap hn
      simp only [resume, runLoop, hm]
      cases hn2 : nextUserInteraction K newAddr more s'.heap with
      | none => rfl
      | some r =>
        obtain ⟨i, rest, h⟩ := r
        have hl1 := nextUserInteraction_length K newAddr more s'.heap i rest h hn2
        dsimp only
        cases hb : loopBody K { s' with heap := h } i with
        | next s1 =>
          exact runLoop_fuel K newAddr _ _ s1 rest (by simp; omega) (by omega)
        | exit s1 => rfl
        | threw r s1 => rfl
        | undefined => rfl
    | some r =>
      obtain ⟨i, rest, h⟩ := r
      have hl := nextUserInteraction_length K newAddr keys s.heap i rest h hn
      have hm := nextUserInteraction_append_some K newAddr keys more s.heap i rest h hn
      rw [resume_pass K newAddr s keys rest i h hn] at hk
      rw [resume_pass K newAddr s (keys ++ more) (rest ++ more) i h hm]
      cases hb : loopBody K { s with heap := h } i with
      | next s1 =>
        rw [hb] at hk
        exact ih rest.length (by omega) rest rfl s1 s' more hk
      | exit s1 =>
        rw [hb] at hk
        exact absurd hk (drain_ne_awaiting s1 s')
      | threw r s1 =>
        rw [hb] at hk
        simp at hk
      | undefined =>
        rw [hb] at hk
        simp at hk

end CommandProcessor

/-! ## The branches of the loop body -/

namespace CommandProcessor

variable {C E : Type} (K : CommandClasses C E) (newAddr : Allocator C)

theorem loopBody_undo_empty (s : State C E) (i : UserInteraction)
    (hi : i.type = UserInteractionType.undo) (hu : s.undoStack = []) :
    loopBody K s i =
      Outcome.next
        { s with view := s.view ++ [ViewCall.showErrorMessage "Undo Empty", ViewCall.refresh] } := by
  simp [loopBody, hi, hu]

theorem loopBody_undo_cons (s : State C E) (i t : UserInteraction) (rest : List UserInteraction)
    (p : Ptr) (obj : C) (hi : i.type = UserInteractionType.undo) (hu : s.undoStack = t :: rest)
    (hp : t.command = some p) (ho : s.heap.deref p = some obj) :
    loopBody K s i =
      Outcome.next
        { editor := (K.undo obj s.editor).2
          view := s.view ++ [ViewCall.clearErrorMessage, ViewCall.refresh]
          heap := s.heap.store p (K.undo obj s.editor).1
          undoStack := rest
          redoStack := t :: s.redoStack } := by
  simp [loopBody, hi, hu, hp, ho]

theorem loopBody_redo_empty (s : State C E) (i : UserInteraction)
    (hi : i.type = UserInteractionType.redo) (hr : s.redoStack = []) :
    loopBody K s i =
      Outcome.next
        { s with view := s.view ++ [ViewCall.showErrorMessage "Redo Empty", ViewCall.refresh] } := by
  simp [loopBody, hi, hr]

theorem loopBody_redo_returned (s : State C E) (i t : UserInteraction)
    (rest : List UserInteraction) (p : Ptr) (obj obj' : C) (e' : E)
    (hi : i.type = UserInteractionType.redo) (hr : s.redoStack = t :: rest)
    (hp : t.command = some p) (ho : s.heap.deref p = some obj)
    (hx : K.execute obj s.editor = ExecResult.returned obj' e') :
    loopBody K s i =
      Outcome.next
        { editor := e'
          view := s.view ++ [ViewCall.clearErrorMessage, ViewCall.refresh]
          heap := s.heap.store p obj'
          undoStack := t :: s.undoStack
          redoStack := rest } := by
  simp [loopBody, hi, hr, hp, ho, hx]

theorem loopBody_redo_threw (s : State C E) (i t : UserInteraction)
    (rest : List UserInteraction) (p : Ptr) (obj obj' : C) (e' : E) (reason : String)
    (hi : i.type = UserInteractionType.redo) (hr : s.redoStack = t :: rest)
    (hp : t.command = some p) (ho : s.heap.deref p = some obj)
    (hx : K.execute obj s.editor = ExecResult.threw reason obj' e') :
    loopBody K s i =
      Outcome.threw reason
        { editor := e'
          view := s.view
          heap := s.heap.store p obj'
          undoStack := t :: s.undoStack
          redoStack := rest } := by
  simp [loopBody, hi, hr, hp, ho, hx]

theorem loopBody_command_returned (s : State C E) (i : UserInteraction) (p : Ptr)
    (obj obj' : C) (e' : E) (hi : i.type = UserInteractionType.command)
    (hp : i.command = some p) (ho : s.heap.deref p = some obj)
    (hx : K.execute obj s.editor = ExecResult.returned obj' e') :
    loopBody K s i =
      Outcome.next
        { editor := e'
          view := s.view ++ [ViewCall.clearErrorMessage, ViewCall.refresh]
          heap := s.heap.store p obj'
          undoStack := i :: s.undoStack
          redoStack := s.redoStack } := by
  simp [loopBody, hi, hp, ho, hx]

theorem loopBody_command_threw (s : State C E) (i : UserInteraction) (p : Ptr)
    (obj obj' : C) (e' : E) (reason : String) (hi : i.type = UserInteractionType.command)
    (hp : i.command = some p) (ho : s.heap.deref p = some obj)
    (hx : K.execute obj s.editor = ExecResult.threw reason obj' e') :
    loopBody K s i =
      Outcome.next
        { editor := e'
          view := s.view ++ [ViewCall.showErrorMessage reason, ViewCall.refresh]
          heap := s.heap.store p obj'
          undoStack := s.undoStack
          redoStack := s.redoStack } := by
  simp [loopBody, hi, hp, ho, hx]

end CommandProcessor

/-! ## Ownership of the stacks -/

namespace CommandProcessor

variable {C E : Type} (K : CommandClasses C E) (newAddr : Allocator C)

theorem Owned.of_perm {s s' : State C E} (hs : Owned s)
    (hperm : (s'.undoStack ++ s'.redoStack).Perm (s.undoStack ++ s.redoStack))
    (haddrs : ∀ p, p ∈ s.heap.addrs → p ∈ s'.heap.addrs) : Owned s' where
  isCommand := fun i hi => hs.isCommand i (hperm.mem_iff.mp hi)
  live := fun i hi => by
    obtain ⟨p, hp, hl⟩ := hs.live i (hperm.mem_iff.mp hi)
    exact ⟨p, hp, haddrs p hl⟩
  nodup := ((hperm.map (fun i => i.command)).nodup_iff).mpr hs.nodup

theorem owned_start (editor : E) (view : List ViewCall) (heap : Heap C) :
    Owned (start editor view heap) where
  isCommand := by simp [start]
  live := by simp [start]
  nodup := by simp [start]

theorem Owned.deref_some {s : State C E} (hs : Owned s) (i : UserInteraction)
    (hi : i ∈ s.undoStack ++ s.redoStack) :
    ∃ p obj, i.command = some p ∧ s.heap.deref p = some obj := by
  obtain ⟨p, hp, hl⟩ := hs.live i hi
  obtain ⟨obj, ho⟩ := (Heap.mem_addrs_iff s.heap p).mp hl
  exact ⟨p, obj, hp, ho⟩

/-- A pass of the loop that uses no allocation keeps the ownership discipline. -/
theorem owned_loopBody_plain (s s' : State C E) (i : UserInteraction) (hs : Owned s)
    (hi : i.type ≠ UserInteractionType.command) (hb : loopBody K s i = Outcome.next s') :
    Owned s' := by
  cases hty : i.type with
  | command => exact absurd hty hi
  | quit => simp [loopBody, hty] at hb
  | undo =>
    cases hu : s.undoStack with
    | nil =>
      rw [loopBody_undo_empty K s i hty hu] at hb
      cases hb
      exact hs.of_perm (List.Perm.refl _) (fun p hp => hp)
    | cons t rest =>
      obtain ⟨p, obj, hp, ho⟩ := hs.deref_some t (by simp [hu])
      rw [loopBody_undo_cons K s i t rest p obj hty hu hp ho] at hb
      cases hb
      refine hs.of_perm ?_ ?_
      · simp only [hu]
        exact (List.perm_middle).trans (List.Perm.refl _)
      · intro q hq
        simpa [Heap.addrs_store] using hq
  | redo =>
    cases hr : s.redoStack with
    | nil =>
      rw [loopBody_redo_empty K s i hty hr] at hb
      cases hb
      exact hs.of_perm (List.Perm.refl _) (fun p hp => hp)
    | cons t rest =>
      obtain ⟨p, obj, hp, ho⟩ := hs.deref_some t (by simp [hr])
      cases hx : K.execute obj s.editor with
      | returned obj' e' =>
        rw [loopBody_redo_returned K s i t rest p obj obj' e' hty hr hp ho hx] at hb
        cases hb
        refine hs.of_perm ?_ ?_
        · simp only [hr]
          exact (List.perm_middle).symm
        · intro q hq
          simpa [Heap.addrs_store] using hq
      | threw reason obj' e' =>
        rw [loopBody_redo_threw K s i t rest p obj obj' e' reason hty hr hp ho hx] at hb
        cases hb

end CommandProcessor

namespace CommandProcessor

variable {C E : Type} (K : CommandClasses C E) (newAddr : Allocator C)

/-- A pointer that is not live is held by neither stack. -/
theorem Owned.not_mem_of_fresh {s : State C E} (hs : Owned s) (p : Ptr)
    (hp : p ∉ s.heap.addrs) :
    some p ∉ (s.undoStack ++ s.redoStack).map (fun i => i.command) := by
  intro hmem
  obtain ⟨i, hi, hc⟩ := List.mem_map.mp hmem
  obtain ⟨q, hq, hl⟩ := hs.live i hi
  rw [hq] at hc
  cases hc
  exact hp hl

/-- A pass of the loop that executes a newly allocated command keeps the
ownership discipline. -/
theorem owned_loopBody_new (s s' : State C E) (p : Ptr) (obj : C) (hs : Owned s)
    (hp : p ∉ s.heap.addrs)
    (hb : loopBody K { s with heap := s.heap.alloc p obj } (makeCommandInteraction (some p))
      = Outcome.next s') :
    Owned s' := by
  have ho : (s.heap.alloc p obj).deref p = some obj := by simp [Heap.deref_alloc]
  have hnot := hs.not_mem_of_fresh p hp
  cases hx : K.execute obj s.editor with
  | returned obj' e' =>
    rw [loopBody_command_returned K { s with heap := s.heap.alloc p obj }
      (makeCommandInteraction (some p)) p obj obj' e' rfl rfl ho hx] at hb
    cases hb
    constructor
    · intro i hi
      simp only [List.cons_append, List.mem_cons] at hi
      rcases hi with rfl | hi
      · rfl
      · exact hs.isCommand i hi
    · intro i hi
      simp only [List.cons_append, List.mem_cons] at hi
      rcases hi with rfl | hi
      · exact ⟨p, rfl, by simp [Heap.addrs_store, Heap.addrs_alloc]⟩
      · obtain ⟨q, hq, hl⟩ := hs.live i hi
        exact ⟨q, hq, by simp [Heap.addrs_store, Heap.addrs_alloc, hl]⟩
    · simp only [List.cons_append, List.map_cons, List.nodup_cons]
      exact ⟨hnot, hs.nodup⟩
  | threw reason obj' e' =>
    rw [loopBody_command_threw K { s with heap := s.heap.alloc p obj }
      (makeCommandInteraction (some p)) p obj obj' e' reason rfl rfl ho hx] at hb
    cases hb
    refine hs.of_perm (List.Perm.refl _) ?_
    intro q hq
    simp [Heap.addrs_store, Heap.addrs_alloc, hq]

/-- Every pass of the loop keeps the ownership discipline. -/
theorem owned_pass (hfresh : newAddr.Fresh) (s s' : State C E) (keys rest : List Keypress)
    (i : UserInteraction) (h : Heap C) (hs : Owned s)
    (hn : nextUserInteraction K newAddr keys s.heap = some (i, rest, h))
    (hb : loopBody K { s with heap := h } i = Outcome.next s') : Owned s' := by
  rcases nextUserInteraction_cases K newAddr keys s.heap i rest h hn with
    ⟨rfl, _, hty⟩ | ⟨cls, rfl, rfl⟩
  · exact owned_loopBody_plain K s s' i hs hty hb
  · exact owned_loopBody_new K s s' (newAddr s.heap) (K.construct cls) hs (hfresh s.heap) hb

theorem owned_resume (hfresh : newAddr.Fresh) :
    ∀ (n : Nat) (keys : List Keypress), keys.length = n → ∀ (s s' : State C E), Owned s →
      resume K newAddr s keys = RunResult.awaiting s' → Owned s' := by
  intro n
  induction n using Nat.strong_induction_on with
  | _ n ih =>
    intro keys hlen s s' hs hk
    cases hn : nextUserInteraction K newAddr keys s.heap with
    | none =>
      simp only [resume, runLoop, hn] at hk
      cases hk
      exact hs
    | some r =>
      obtain ⟨i, rest, h⟩ := r
      have hl := nextUserInteraction_length K newAddr keys s.heap i rest h hn
      rw [resume_pass K newAddr s keys rest i h hn] at hk
      cases hb : loopBody K { s with heap := h } i with
      | next s1 =>
        rw [hb] at hk
        exact ih rest.length (by omega) rest rfl s1 s'
          (owned_pass K newAddr hfresh s s1 keys rest i h hs hn hb) hk
      | exit s1 =>
        rw [hb] at hk
        exact absurd hk (drain_ne_awaiting s1 s')
      | threw r s1 =>
        rw [hb] at hk
        simp at hk
      | undefined =>
        rw [hb] at hk
        simp at hk

theorem Reachable.owned (hfresh : newAddr.Fresh) {s : State C E}
    (hs : Reachable K newAddr s) : Owned s := by
  obtain ⟨editor, view, heap, keys, hk⟩ := hs
  exact owned_resume K newAddr hfresh keys.length keys rfl _ s (owned_start editor view heap) hk

theorem bumpAllocator_fresh : (bumpAllocator : Allocator C).Fresh := by
  intro h
  have hle : ∀ (l : List Ptr) (p : Ptr), p ∈ l → p ≤ l.foldr max 0 := by
    intro l
    induction l with
    | nil => intro p hp; simp at hp
    | cons x xs ih =>
      intro p hp
      simp only [List.mem_cons] at hp
      simp only [List.foldr_cons]
      rcases hp with rfl | hp
      · exact le_max_left _ _
      · exact le_trans (ih p hp) (le_max_right _ _)
  intro hmem
  have hbound : h.addrs.foldr max 0 + 1 ≤ h.addrs.foldr max 0 := hle h.addrs _ hmem
  exact Nat.not_succ_le_self _ hbound

end CommandProcessor

/-! ## Histories: what the stacks record -/

namespace CommandProcessor

variable {C E : Type} (K : CommandClasses C E) (newAddr : Allocator C)

theorem trail_frame {h1 h2 : Heap C} :
    ∀ {entries : List UserInteraction} {e d : E},
      (∀ i ∈ entries, ∀ q, i.command = some q → h2.deref q = h1.deref q) →
      Trail K h1 entries e d → Trail K h2 entries e d := by
  intro entries
  induction entries with
  | nil => intro e d _ ht; exact ht
  | cons i rest ih =>
    intro e d hagree ht
    obtain ⟨p, obj', obj0, e0, hp, ho, hx, hrest⟩ := ht
    refine ⟨p, obj', obj0, e0, hp, ?_, hx, ?_⟩
    · rw [hagree i (List.mem_cons_self _ _) p hp]
      exact ho
    · exact ih (fun j hj q hq => hagree j (List.mem_cons_of_mem _ hj) q hq) hrest

theorem trail_append {h : Heap C} :
    ∀ {top bottom : List UserInteraction} {e m d : E},
      Trail K h top e m → Trail K h bottom m d → Trail K h (top ++ bottom) e d := by
  intro top
  induction top with
  | nil =>
    intro bottom e m d ht hb
    have hem : e = m := ht
    subst hem
    exact hb
  | cons i rest ih =>
    intro bottom e m d ht hb
    obtain ⟨p, obj', obj0, e0, hp, ho, hx, hrest⟩ := ht
    exact ⟨p, obj', obj0, e0, hp, ho, hx, ih hrest hb⟩

theorem replays_frame :
    ∀ {entries : List UserInteraction} {h1 h2 : Heap C} {e t : E},
      (∀ i ∈ entries, ∀ q, i.command = some q → h2.deref q = h1.deref q) →
      Replays K h1 entries e t → Replays K h2 entries e t := by
  intro entries
  induction entries with
  | nil => intro h1 h2 e t _ hr; exact hr
  | cons i rest ih =>
    intro h1 h2 e t hagree hr
    obtain ⟨p, obj, obj', e', hp, ho, hx, hrest⟩ := hr
    have hpe := hagree i (List.mem_cons_self _ _) p hp
    refine ⟨p, obj, obj', e', hp, ?_, hx, ?_⟩
    · rw [hpe]
      exact ho
    · refine ih ?_ hrest
      intro j hj q hq
      rw [Heap.deref_store, Heap.deref_store, hpe, hagree j (List.mem_cons_of_mem _ hj) q hq]

/-- Writing to an object that a list of entries does not hold is invisible
through these entries. -/
theorem store_agree (h : Heap C) (p : Ptr) (obj : C) (entries : List UserInteraction)
    (hp : some p ∉ entries.map (fun i => i.command)) :
    ∀ i ∈ entries, ∀ q, i.command = some q → (h.store p obj).deref q = h.deref q := by
  intro i hi q hq
  have hne : q ≠ p := by
    rintro rfl
    exact hp (List.mem_map.mpr ⟨i, hi, hq⟩)
  rw [Heap.deref_store, if_neg hne]

/-- The commands phase: keypresses that are all executed successfully push one
entry each, record their history on the undo stack, and touch neither the redo
stack nor the objects that were live before. -/
theorem resume_commands (hfresh : newAddr.Fresh) :
    ∀ (keys : List Keypress) (s : State C E), Owned s → ExecutesAll K newAddr s keys →
      ∃ (s1 : State C E) (seg : List UserInteraction),
        resume K newAddr s keys = RunResult.awaiting s1 ∧
        s1.undoStack = seg ++ s.undoStack ∧ seg.length = keys.length ∧
        s1.redoStack = s.redoStack ∧
        Trail K s1.heap seg s1.editor s.editor ∧
        (∀ q ∈ s.heap.addrs, s1.heap.deref q = s.heap.deref q) ∧
        (∀ q ∈ s.heap.addrs, q ∈ s1.heap.addrs) ∧
        Owned s1 := by
  intro keys
  induction keys with
  | nil =>
    intro s hs _
    exact ⟨s, [], rfl, rfl, rfl, rfl, rfl, fun _ _ => rfl, fun _ hq => hq, hs⟩
  | cons key keys ih =>
    intro s hs hall
    obtain ⟨p, h, obj, obj', e', s', hn, ho, hx, hb, hrest⟩ := hall
    have hn' := nextUserInteraction_single K newAddr key s.heap _ h hn keys
    have hs' : Owned s' := owned_pass K newAddr hfresh s s' _ _ _ h hs hn' hb
    have hres : resume K newAddr s (key :: keys) = resume K newAddr s' keys :=
      resume_next K newAddr s s' _ _ _ h hn' hb
    rw [loopBody_command_returned K { s with heap := h } _ p obj obj' e' rfl rfl ho hx] at hb
    have hs'eq := Outcome.next.inj hb
    obtain ⟨s1, seg, hk, hu, hlen, hr, htrail, hkeep, hsub, hs1⟩ := ih s' hs' hrest
    have hpfresh : p ∉ s.heap.addrs ∧ ∃ c0, h = s.heap.alloc p c0 := by
      rcases nextUserInteraction_cases K newAddr _ s.heap _ _ h hn with
        ⟨_, hnone, _⟩ | ⟨cls, hi, rfl⟩
      · simp [makeCommandInteraction] at hnone
      · simp only [makeCommandInteraction, UserInteraction.mk.injEq, Option.some.injEq,
          true_and] at hi
        subst hi
        exact ⟨hfresh s.heap, _, rfl⟩
    obtain ⟨hpnot, c0, rfl⟩ := hpfresh
    have hps' : p ∈ s'.heap.addrs := by
      rw [← hs'eq]
      simp [Heap.addrs_store, Heap.addrs_alloc]
    have hderef' : s'.heap.deref p = some obj' := by
      rw [← hs'eq]
      simp [Heap.deref_store, Heap.deref_alloc]
    have hold : ∀ q ∈ s.heap.addrs, s'.heap.deref q = s.heap.deref q ∧ q ∈ s'.heap.addrs := by
      intro q hq
      have hne : q ≠ p := by
        rintro rfl
        exact hpnot hq
      rw [← hs'eq]
      simp [Heap.deref_store, Heap.deref_alloc, Heap.addrs_store, Heap.addrs_alloc, hne, hq]
    refine ⟨s1, seg ++ [makeCommandInteraction (some p)], ?_, ?_, ?_, ?_, ?_, ?_, ?_, hs1⟩
    · rw [hres, hk]
    · rw [hu, ← hs'eq]
      simp
    · simp [hlen]
    · rw [hr, ← hs'eq]
    · refine trail_append K htrail ?_
      refine ⟨p, obj', obj, s.editor, rfl, ?_, ?_, rfl⟩
      · rw [hkeep p hps', hderef']
      · rw [← hs'eq]
        exact hx
    · intro q hq
      rw [hkeep q (hold q hq).2, (hold q hq).1]
    · intro q hq
      exact hsub q (hold q hq).2

end CommandProcessor

namespace CommandProcessor

variable {C E : Type} (K : CommandClasses C E) (newAddr : Allocator C)

/-- The undo phase: as many undos as the recorded history has entries move these
entries to the redo stack in reverse order and bring the document back to
where the history started.  When `execute` is deterministic in the document,
the entries moved can be replayed from there. -/
theorem resume_undos (hexact : UndoExact K) :
    ∀ (seg : List UserInteraction) (s : State C E) (below : List UserInteraction) (d : E),
      Owned s → s.undoStack = seg ++ below → Trail K s.heap seg s.editor d →
      ∃ s2 : State C E,
        resume K newAddr s (List.replicate seg.length undoKey) = RunResult.awaiting s2 ∧
        s2.editor = d ∧ s2.undoStack = below ∧
        s2.redoStack = seg.reverse ++ s.redoStack ∧ Owned s2 ∧
        (ExecuteRepeats K → ∀ (rseg rbelow : List UserInteraction) (t : E),
          s.redoStack = rseg ++ rbelow → Replays K s.heap rseg s.editor t →
          Replays K s2.heap (seg.reverse ++ rseg) d t) := by
  intro seg
  induction seg with
  | nil =>
    intro s below d hs hu ht
    have hd : s.editor = d := ht
    exact ⟨s, rfl, hd, by simpa using hu, by simp, hs, fun _ rseg _ t _ hr => by
      subst hd
      simpa using hr⟩
  | cons i seg ih =>
    intro s below d hs hu ht
    obtain ⟨p, obj', obj0, e0, hp, ho, hx, hrest⟩ := ht
    have hu' : s.undoStack = i :: (seg ++ below) := by simpa using hu
    have hb := loopBody_undo_cons K s makeUndoInteraction i (seg ++ below) p obj' rfl hu' hp ho
    have hed : (K.undo obj' s.editor).2 = e0 := hexact obj0 e0 obj' s.editor hx
    have hnodup := hs.nodup
    rw [hu'] at hnodup
    simp only [List.cons_append, List.map_cons, List.nodup_cons, hp] at hnodup
    obtain ⟨hpnot, _⟩ := hnodup
    have hs' := owned_loopBody_plain K s _ makeUndoInteraction hs (by simp [makeUndoInteraction]) hb
    have hres := resume_next K newAddr s _ (undoKey :: List.replicate seg.length undoKey) _ _
      s.heap (nextUserInteraction_undoKey K newAddr _ s.heap) hb
    have hpseg : some p ∉ seg.map (fun i => i.command) := by
      intro hmem
      apply hpnot
      simp only [List.map_append, List.mem_append] at hmem ⊢
      exact Or.inl (Or.inl hmem)
    have htrail' : Trail K (s.heap.store p (K.undo obj' s.editor).1) seg
        (K.undo obj' s.editor).2 d := by
      rw [hed]
      exact trail_frame K (store_agree s.heap p _ seg hpseg) hrest
    obtain ⟨s2, hk, hd, hu2, hr2, hs2, hrep⟩ := ih _ below d hs' rfl htrail'
    refine ⟨s2, ?_, hd, hu2, ?_, hs2, ?_⟩
    · rw [List.length_cons, List.replicate_succ, hres]
      exact hk
    · rw [hr2]
      simp
    · intro hdet rseg rbelow t hrs hrp
      have := hrep hdet (i :: rseg) rbelow t (by simp [hrs]) ?_
      · simpa using this
      · obtain ⟨obj'', hx2⟩ := hdet obj0 e0 obj' s.editor hx
        refine ⟨p, (K.undo obj' s.editor).1, obj'', s.editor, hp, ?_, ?_, ?_⟩
        · simp [Heap.deref_store, ho]
        · show K.execute (K.undo obj' s.editor).1 (K.undo obj' s.editor).2 = _
          rw [hed]
          exact hx2
        · have hprseg : some p ∉ rseg.map (fun i => i.command) := by
            intro hmem
            apply hpnot
            simp only [List.map_append, List.mem_append, hrs] at hmem ⊢
            exact Or.inr (Or.inl hmem)
          refine replays_frame K ?_ hrp
          intro j hj q hq
          rw [store_agree _ p _ rseg hprseg j hj q hq, store_agree _ p _ rseg hprseg j hj q hq]

/-- The redo phase: as many redos as there are replayable entries move them
back to the undo stack in reverse order and end in the replay's document. -/
theorem resume_redos :
    ∀ (rseg : List UserInteraction) (s : State C E) (rbelow : List UserInteraction) (t : E),
      Owned s → s.redoStack = rseg ++ rbelow → Replays K s.heap rseg s.editor t →
      ∃ s3 : State C E,
        resume K newAddr s (List.replicate rseg.length redoKey) = RunResult.awaiting s3 ∧
        s3.editor = t ∧ s3.redoStack = rbelow ∧
        s3.undoStack = rseg.reverse ++ s.undoStack ∧ Owned s3 := by
  intro rseg
  induction rseg with
  | nil =>
    intro s rbelow t hs hr hrp
    have ht : s.editor = t := hrp
    exact ⟨s, rfl, ht, by simpa using hr, by simp, hs⟩
  | cons i rseg ih =>
    intro s rbelow t hs hr hrp
    obtain ⟨p, obj, obj', e', hp, ho, hx, hrest⟩ := hrp
    have hr' : s.redoStack = i :: (rseg ++ rbelow) := by simpa using hr
    have hb := loopBody_redo_returned K s makeRedoInteraction i (rseg ++ rbelow) p obj obj' e'
      rfl hr' hp ho hx
    have hs' := owned_loopBody_plain K s _ makeRedoInteraction hs (by simp [makeRedoInteraction]) hb
    have hres := resume_next K newAddr s _ (redoKey :: List.replicate rseg.length redoKey) _ _
      s.heap (nextUserInteraction_redoKey K newAddr _ s.heap) hb
    obtain ⟨s3, hk, he3, hr3, hu3, hs3⟩ := ih _ rbelow t hs' rfl hrest
    refine ⟨s3, ?_, he3, hr3, ?_, hs3⟩
    · rw [List.length_cons, List.replicate_succ, hres]
      exact hk
    · rw [hu3]
      simp

end CommandProcessor

/-! ## The small instance -/

theorem lineCommands_undoExact : UndoExact lineCommands := by
  intro obj e obj' e' hx
  simp only [lineCommands] at hx ⊢
  split at hx
  · cases hx
    rfl
  · split at hx
    · cases hx
    · cases hx
      rfl
  · cases hx

theorem lineCommands_executeRepeats : ExecuteRepeats lineCommands := by
  intro obj e obj' e' hx
  simp only [lineCommands] at hx ⊢
  split at hx
  · rename_i c hc
    cases hx
    simp [hc]
  · rename_i hc
    split at hx
    · cases hx
    · rename_i hcol
      cases hx
      simp [hc, hcol]
  · cases hx

/-! ## Round trips (C1, C2) -/

namespace CommandProcessor

variable {C E : Type} (K : CommandClasses C E) (newAddr : Allocator C)

/-- C1: from a fresh run on document `d`, `N` command interactions whose
`execute` all return, followed by `N` undo interactions, leave the loop
waiting with the document equal to `d` again, the undo stack empty and exactly
`N` entries on the redo stack, provided `undo` exactly reverses the last
successful `execute`. -/
theorem run_commands_undos_roundtrip (hfresh : newAddr.Fresh) (hexact : UndoExact K)
    (d : E) (view : List ViewCall) (heap : Heap C) (cmds : List Keypress)
    (hok : ExecutesAll K newAddr (start d view heap) cmds) :
    ∃ s : State C E,
      run K newAddr d view heap (cmds ++ List.replicate cmds.length undoKey)
        = RunResult.awaiting s ∧
      s.editor = d ∧ s.undoStack = [] ∧ s.redoStack.length = cmds.length := by
  obtain ⟨s1, seg, hk1, hu1, hlen, hr1, htrail, _, _, hs1⟩ :=
    resume_commands K newAddr hfresh cmds (start d view heap) (owned_start d view heap) hok
  obtain ⟨s2, hk2, hd2, hu2, hr2, _, _⟩ :=
    resume_undos K newAddr hexact seg s1 [] d hs1 (by simpa [start] using hu1) htrail
  refine ⟨s2, ?_, hd2, hu2, ?_⟩
  · rw [run, resume_append K newAddr cmds.length cmds rfl _ s1 _ hk1, ← hlen]
    exact hk2
  · rw [hr2, hr1]
    simp [start, hlen]

/-- C2: in any state the loop can be in, after `N` command interactions whose
`execute` all return, `N` undo interactions followed by `N` redo interactions
leave the document, and both stacks, as they were right after the `N`
commands, provided `undo` exactly reverses `execute` and `execute` is
deterministic in the document. -/
theorem resume_undos_redos_roundtrip (hfresh : newAddr.Fresh) (hexact : UndoExact K)
    (hdet : ExecuteRepeats K) (s0 : State C E) (hs0 : Reachable K newAddr s0)
    (cmds : List Keypress) (hok : ExecutesAll K newAddr s0 cmds) :
    ∃ s1 s3 : State C E,
      resume K newAddr s0 cmds = RunResult.awaiting s1 ∧
      resume K newAddr s0
          (cmds ++ (List.replicate cmds.length undoKey ++ List.replicate cmds.length redoKey))
        = RunResult.awaiting s3 ∧
      s3.editor = s1.editor ∧ s3.undoStack = s1.undoStack ∧ s3.redoStack = s1.redoStack := by
  obtain ⟨s1, seg, hk1, hu1, hlen, hr1, htrail, _, _, hs1⟩ :=
    resume_commands K newAddr hfresh cmds s0 (hs0.owned K newAddr hfresh) hok
  obtain ⟨s2, hk2, hd2, hu2, hr2, hs2, hrep⟩ :=
    resume_undos K newAddr hexact seg s1 s0.undoStack s0.editor hs1 hu1 htrail
  have hreplay := hrep hdet [] s1.redoStack s1.editor rfl rfl
  rw [List.append_nil, ← hd2] at hreplay
  obtain ⟨s3, hk3, he3, hr3, hu3, _⟩ :=
    resume_redos K newAddr seg.reverse s2 s1.redoStack s1.editor hs2 hr2 hreplay
  refine ⟨s1, s3, hk1, ?_, he3, ?_, hr3⟩
  · rw [resume_append K newAddr cmds.length cmds rfl _ s1 _ hk1, ← hlen]
    have hk2' := resume_append K newAddr _ (List.replicate seg.length undoKey) rfl _ s2
      (List.replicate seg.length redoKey) hk2
    rw [hk2']
    simpa using hk3
  · rw [hu3, hu2, hu1]
    simp

/-- Instance of C1: typing `a` and `b` into the blank one-line document, then
two undos. -/
theorem run_commands_undos_roundtrip_witness :
    (bumpAllocator : Allocator LineCommand).Fresh ∧ UndoExact lineCommands ∧
    ExecutesAll lineCommands bumpAllocator (start LineEditor.blank [] Heap.empty)
      [{ ctrl := false, c := 'a' }, { ctrl := false, c := 'b' }] ∧
    ∃ s : State LineCommand LineEditor,
      run lineCommands bumpAllocator LineEditor.blank [] Heap.empty
        ([{ ctrl := false, c := 'a' }, { ctrl := false, c := 'b' }] ++
          List.replicate [({ ctrl := false, c := 'a' } : Keypress),
            { ctrl := false, c := 'b' }].length undoKey)
        = RunResult.awaiting s ∧
      s.editor = LineEditor.blank ∧ s.undoStack = [] ∧
      s.redoStack.length
        = [({ ctrl := false, c := 'a' } : Keypress), { ctrl := false, c := 'b' }].length :=
  have hok : ExecutesAll lineCommands bumpAllocator (start LineEditor.blank [] Heap.empty)
      [{ ctrl := false, c := 'a' }, { ctrl := false, c := 'b' }] :=
    ⟨_, _, _, _, _, _, rfl, rfl, rfl, rfl, _, _, _, _, _, _, rfl, rfl, rfl, rfl, trivial⟩
  ⟨bumpAllocator_fresh, lineCommands_undoExact, hok,
    run_commands_undos_roundtrip lineCommands bumpAllocator bumpAllocator_fresh
      lineCommands_undoExact LineEditor.blank [] Heap.empty _ hok⟩

end CommandProcessor

/-! ## Failures (C3 to C6) -/

theorem shownError_show (calls : List ViewCall) (message : String) :
    shownError (calls ++ [ViewCall.showErrorMessage message, ViewCall.refresh]) = some message := by
  simp [shownError, List.foldl_append]

theorem shownError_clear (calls : List ViewCall) :
    shownError (calls ++ [ViewCall.clearErrorMessage, ViewCall.refresh]) = none := by
  simp [shownError, List.foldl_append]

namespace CommandProcessor

variable {C E : Type} (K : CommandClasses C E) (newAddr : Allocator C)

/-- An `EditorException` thrown by the `execute` of a redo leaves `run` at once:
the keypresses that follow are never read and nothing is shown. -/
theorem resume_redo_threw (s : State C E) (t : UserInteraction) (rest : List UserInteraction)
    (p : Ptr) (obj obj' : C) (e' : E) (reason : String) (keys : List Keypress)
    (hr : s.redoStack = t :: rest) (hp : t.command = some p) (ho : s.heap.deref p = some obj)
    (hx : K.execute obj s.editor = ExecResult.threw reason obj' e') :
    resume K newAddr s (redoKey :: keys) =
      RunResult.threw reason
        { editor := e'
          view := s.view
          heap := s.heap.store p obj'
          undoStack := t :: s.undoStack
          redoStack := rest } := by
  rw [resume_pass K newAddr s _ keys _ s.heap (nextUserInteraction_redoKey K newAddr keys s.heap),
    loopBody_redo_threw K s makeRedoInteraction t rest p obj obj' e' reason rfl hr hp ho hx]

/-- C3 (the code departs from it): typing `a`, Ctrl+U, Ctrl+Z, Ctrl+U and then
Ctrl+A redoes a `CursorLeft` at column 0.  Its `EditorException` is not caught:
`run` ends with the exception instead of showing the message and reading the
next keypress, and the three command objects are still allocated. -/
theorem run_redo_failure_escapes :
    ∃ s : State LineCommand LineEditor,
      run lineCommands bumpAllocator LineEditor.blank [] Heap.empty
        [{ ctrl := false, c := 'a' }, { ctrl := true, c := 'U' }, undoKey,
          { ctrl := true, c := 'U' }, redoKey, { ctrl := false, c := 'b' }]
        = RunResult.threw "Already at beginning" s ∧
      shownError s.view = none ∧ s.editor = { text := ['a'], column := 0 } ∧
      s.heap.addrs = [3, 2, 1] ∧ s.heap.freed = [] :=
  ⟨_, rfl, rfl, rfl, rfl, rfl⟩

/-- C4: a command interaction whose `execute` fails with reason `r` without
touching the document leaves the undo stack, the redo stack and the document
as they were, shows exactly `r`, leaves every other command object as it was,
and a following undo does what it would have done before the attempt. -/
theorem failed_command_atomic (hfresh : newAddr.Fresh) (s : State C E)
    (hs : Reachable K newAddr s) (keys rest : List Keypress) (i : UserInteraction) (h : Heap C)
    (p : Ptr) (obj obj' : C) (r : String)
    (hn : nextUserInteraction K newAddr keys s.heap = some (i, rest, h))
    (hi : i.type = UserInteractionType.command) (hp : i.command = some p)
    (ho : h.deref p = some obj)
    (hx : K.execute obj s.editor = ExecResult.threw r obj' s.editor) :
    ∃ s' : State C E,
      loopBody K { s with heap := h } i = Outcome.next s' ∧
      s'.undoStack = s.undoStack ∧ s'.redoStack = s.redoStack ∧ s'.editor = s.editor ∧
      s'.view = s.view ++ [ViewCall.showErrorMessage r, ViewCall.refresh] ∧
      shownError s'.view = some r ∧
      (∀ q, q ≠ p → s'.heap.deref q = s.heap.deref q) ∧
      (∀ u t, u.type = UserInteractionType.undo → loopBody K s u = Outcome.next t →
        ∃ t', loopBody K s' u = Outcome.next t' ∧ t'.editor = t.editor ∧
          t'.undoStack = t.undoStack ∧ t'.redoStack = t.redoStack) := by
  have hown := hs.owned K newAddr hfresh
  have hb := loopBody_command_threw K { s with heap := h } i p obj obj' s.editor r hi hp ho hx
  have hfr : p ∉ s.heap.addrs ∧ ∃ c0, h = s.heap.alloc p c0 := by
    rcases nextUserInteraction_cases K newAddr _ s.heap _ _ h hn with
      ⟨_, hnone, _⟩ | ⟨cls, hi', rfl⟩
    · rw [hnone] at hp
      cases hp
    · rw [hi'] at hp
      cases hp
      exact ⟨hfresh s.heap, _, rfl⟩
  obtain ⟨hpnot, c0, rfl⟩ := hfr
  have hheap : ∀ q, q ≠ p → ((s.heap.alloc p c0).store p obj').deref q = s.heap.deref q := by
    intro q hq
    simp [Heap.deref_store, Heap.deref_alloc, hq]
  refine ⟨_, hb, rfl, rfl, rfl, rfl, shownError_show _ _, hheap, ?_⟩
  intro u t hu ht
  have hshape : s.undoStack = [] ∨ ∃ top below, s.undoStack = top :: below := by
    cases s.undoStack with
    | nil => exact Or.inl rfl
    | cons top below => exact Or.inr ⟨top, below, rfl⟩
  rcases hshape with hstack | ⟨top, below, hstack⟩
  · rw [loopBody_undo_empty K s u hu hstack] at ht
    cases ht
    exact ⟨_, loopBody_undo_empty K _ u hu hstack, rfl, rfl, rfl⟩
  · obtain ⟨q, objq, hq, hoq⟩ := hown.deref_some top (by simp [hstack])
    have hqp : q ≠ p := by
      rintro rfl
      exact hpnot ((Heap.mem_addrs_iff s.heap q).mpr ⟨objq, hoq⟩)
    rw [loopBody_undo_cons K s u top below q objq hu hstack hq hoq] at ht
    cases ht
    exact ⟨_, loopBody_undo_cons K _ u top below q objq hu hstack hq
      ((hheap q hqp).trans hoq), rfl, rfl, rfl⟩

end CommandProcessor

namespace CommandProcessor

variable {C E : Type} (K : CommandClasses C E) (newAddr : Allocator C)

/-- Instance of C4: Ctrl+U as the first keypress on the blank document. -/
theorem failed_command_atomic_witness :
    (bumpAllocator : Allocator LineCommand).Fresh ∧
    Reachable lineCommands bumpAllocator (start LineEditor.blank [] Heap.empty) ∧
    lineCommands.execute { cls := CommandClass.CursorLeft, saved := none } LineEditor.blank
      = ExecResult.threw "Already at beginning"
          { cls := CommandClass.CursorLeft, saved := none } LineEditor.blank ∧
    ∃ s' : State LineCommand LineEditor,
      loopBody lineCommands
          { start LineEditor.blank [] (Heap.empty : Heap LineCommand) with
            heap := Heap.empty.alloc 1 { cls := CommandClass.CursorLeft, saved := none } }
          (makeCommandInteraction (some 1)) = Outcome.next s' ∧
      s'.undoStack = [] ∧ s'.redoStack = [] ∧ s'.editor = LineEditor.blank ∧
      shownError s'.view = some "Already at beginning" :=
  ⟨bumpAllocator_fresh, ⟨LineEditor.blank, [], Heap.empty, [], rfl⟩, rfl,
    match failed_command_atomic lineCommands bumpAllocator bumpAllocator_fresh
      (start LineEditor.blank [] Heap.empty) ⟨LineEditor.blank, [], Heap.empty, [], rfl⟩
      [{ ctrl := true, c := 'U' }] [] (makeCommandInteraction (some 1))
      (Heap.empty.alloc 1 { cls := CommandClass.CursorLeft, saved := none }) 1
      { cls := CommandClass.CursorLeft, saved := none }
      { cls := CommandClass.CursorLeft, saved := none } "Already at beginning"
      rfl rfl rfl rfl rfl with
    | ⟨s', hb, hu, hr, he, _, hm, _⟩ => ⟨s', hb, hu, hr, he, hm⟩⟩

/-- C5: with an empty undo stack an undo interaction changes nothing but the
view, where the message becomes exactly "Undo Empty"; with an empty redo stack
a redo interaction does the same with "Redo Empty". -/
theorem empty_history_noop (s : State C E) (i : UserInteraction) :
    (i.type = UserInteractionType.undo → s.undoStack = [] →
      ∃ s' : State C E, loopBody K s i = Outcome.next s' ∧
        s'.editor = s.editor ∧ s'.undoStack = s.undoStack ∧ s'.redoStack = s.redoStack ∧
        s'.heap = s.heap ∧
        s'.view = s.view ++ [ViewCall.showErrorMessage "Undo Empty", ViewCall.refresh] ∧
        shownError s'.view = some "Undo Empty") ∧
    (i.type = UserInteractionType.redo → s.redoStack = [] →
      ∃ s' : State C E, loopBody K s i = Outcome.next s' ∧
        s'.editor = s.editor ∧ s'.undoStack = s.undoStack ∧ s'.redoStack = s.redoStack ∧
        s'.heap = s.heap ∧
        s'.view = s.view ++ [ViewCall.showErrorMessage "Redo Empty", ViewCall.refresh] ∧
        shownError s'.view = some "Redo Empty") :=
  ⟨fun hi hu => ⟨_, loopBody_undo_empty K s i hi hu, rfl, rfl, rfl, rfl, rfl,
      shownError_show _ _⟩,
    fun hi hr => ⟨_, loopBody_redo_empty K s i hi hr, rfl, rfl, rfl, rfl, rfl,
      shownError_show _ _⟩⟩

/-- Instance of C5: an undo in the state in which a run on the blank document
starts. -/
theorem empty_history_noop_witness :
    makeUndoInteraction.type = UserInteractionType.undo ∧
    (start LineEditor.blank [] (Heap.empty : Heap LineCommand)).undoStack = [] ∧
    ∃ s' : State LineCommand LineEditor,
      loopBody lineCommands (start LineEditor.blank [] Heap.empty) makeUndoInteraction
        = Outcome.next s' ∧
      s'.editor = LineEditor.blank ∧ s'.undoStack = [] ∧ s'.redoStack = [] ∧
      shownError s'.view = some "Undo Empty" :=
  ⟨rfl, rfl,
    match (empty_history_noop lineCommands (start LineEditor.blank [] Heap.empty)
      makeUndoInteraction).1 rfl rfl with
    | ⟨s', hb, he, hu, hr, _, _, hm⟩ => ⟨s', hb, he, hu, hr, hm⟩⟩

/-- C6 (the code departs from it): Ctrl+U on the blank document fails, and Ctrl+X
then ends the run.  When `run` has returned, the `CursorLeft` object that was
allocated for the failed command is still allocated and no `delete` was ever
executed. -/
theorem run_failed_command_leaks :
    ∃ s : State LineCommand LineEditor,
      run lineCommands bumpAllocator LineEditor.blank [] Heap.empty
        [{ ctrl := true, c := 'U' }, quitKey] = RunResult.returned s ∧
      shownError s.view = some "Already at beginning" ∧
      s.undoStack = [] ∧ s.redoStack = [] ∧
      s.heap.live = [(1, { cls := CommandClass.CursorLeft, saved := none })] ∧
      s.heap.freed = [] :=
  ⟨_, rfl, rfl, rfl, rfl, rfl, rfl⟩

end CommandProcessor

/-! ## Ownership and the drain (C7, C8) -/

theorem Heap.mem_addrs_delete {C : Type} (h h' : Heap C) (p q : Ptr)
    (hd : h.delete p = some h') : q ∈ h'.addrs ↔ q ∈ h.addrs ∧ q ≠ p := by
  unfold Heap.delete at hd
  split at hd
  · cases hd
    simp only [Heap.addrs, List.mem_map, List.mem_filter, bne_iff_ne, ne_eq]
    constructor
    · rintro ⟨x, ⟨hx, hne⟩, rfl⟩
      exact ⟨⟨x, hx, rfl⟩, hne⟩
    · rintro ⟨⟨x, hx, rfl⟩, hne⟩
      exact ⟨x, ⟨hx, hne⟩, rfl⟩
  · cases hd

namespace CommandProcessor

variable {C E : Type} (K : CommandClasses C E) (newAddr : Allocator C)

/-- A drain loop over entries whose pointers are live and pairwise distinct
deletes exactly these pointers, top first, and nothing else. -/
theorem drainStack_spec :
    ∀ (entries : List UserInteraction) (h : Heap C),
      (∀ q ∈ stackPtrs entries, q ∈ h.addrs) → (stackPtrs entries).Nodup →
      ∃ h' : Heap C, drainStack entries h = some h' ∧
        h'.freed = h.freed ++ stackPtrs entries ∧
        h'.live = h.live.filter (fun x => decide (x.1 ∉ stackPtrs entries)) := by
  intro entries
  induction entries with
  | nil =>
    intro h _ _
    exact ⟨h, rfl, by simp [stackPtrs], by simp [stackPtrs]⟩
  | cons i rest ih =>
    intro h hlive hnodup
    cases hc : i.command with
    | none =>
      have hptrs : stackPtrs (i :: rest) = stackPtrs rest := by
        simp [stackPtrs, List.filterMap_cons, hc]
      rw [hptrs] at hlive hnodup ⊢
      obtain ⟨h', hd, hf, hl⟩ := ih h hlive hnodup
      exact ⟨h', by simpa [drainStack, hc] using hd, hf, hl⟩
    | some p =>
      have hptrs : stackPtrs (i :: rest) = p :: stackPtrs rest := by
        simp [stackPtrs, List.filterMap_cons, hc]
      rw [hptrs] at hlive hnodup ⊢
      have hp : p ∈ h.addrs := hlive p (List.mem_cons_self _ _)
      obtain ⟨hpnot, hnodup'⟩ := List.nodup_cons.mp hnodup
      have hdel : h.delete p
          = some { live := h.live.filter (fun q => q.1 != p), freed := h.freed ++ [p] } := by
        simp [Heap.delete, hp]
      have hlive' : ∀ q ∈ stackPtrs rest,
          q ∈ ({ live := h.live.filter (fun q => q.1 != p), freed := h.freed ++ [p] }
            : Heap C).addrs := by
        intro q hq
        rw [Heap.mem_addrs_delete h _ p q hdel]
        refine ⟨hlive q (List.mem_cons_of_mem _ hq), ?_⟩
        rintro rfl
        exact hpnot hq
      obtain ⟨h', hd, hf, hl⟩ := ih _ hlive' hnodup'
      refine ⟨h', by simpa [drainStack, hc, hdel] using hd, ?_, ?_⟩
      · rw [hf]
        simp
      · rw [hl, List.filter_filter]
        apply List.filter_congr
        intro x _
        by_cases hx : x.1 = p <;> simp [hx]

/-- In a state that respects the ownership discipline, the commands of the
entries are exactly the pointers of the stacks, none of them null. -/
theorem Owned.map_command {s : State C E} (hs : Owned s) :
    (s.undoStack ++ s.redoStack).map (fun i => i.command)
      = (stackPtrs s.undoStack ++ stackPtrs s.redoStack).map some := by
  have hall : ∀ entries : List UserInteraction,
      (∀ i ∈ entries, ∃ p, i.command = some p) →
      entries.map (fun i => i.command) = (stackPtrs entries).map some := by
    intro entries
    induction entries with
    | nil => intro _; rfl
    | cons i rest ih =>
      intro hsome
      obtain ⟨p, hp⟩ := hsome i (List.mem_cons_self _ _)
      have hrest := ih (fun j hj => hsome j (List.mem_cons_of_mem _ hj))
      simp only [stackPtrs] at hrest ⊢
      simp [List.filterMap_cons, hp, hrest]
  have hsplit : stackPtrs s.undoStack ++ stackPtrs s.redoStack
      = stackPtrs (s.undoStack ++ s.redoStack) := by
    simp [stackPtrs, List.filterMap_append]
  rw [hsplit]
  exact hall _ (fun i hi => by
    obtain ⟨p, hp, _⟩ := hs.live i hi
    exact ⟨p, hp⟩)

theorem Owned.ptrs_nodup {s : State C E} (hs : Owned s) :
    (stackPtrs s.undoStack ++ stackPtrs s.redoStack).Nodup := by
  have hn := hs.nodup
  rw [hs.map_command] at hn
  exact List.Nodup.of_map _ hn

theorem Owned.ptrs_live {s : State C E} (hs : Owned s) :
    ∀ q ∈ stackPtrs s.undoStack ++ stackPtrs s.redoStack, q ∈ s.heap.addrs := by
  intro q hq
  have hmem : some q ∈ (s.undoStack ++ s.redoStack).map (fun i => i.command) := by
    rw [hs.map_command]
    exact List.mem_map.mpr ⟨q, hq, rfl⟩
  obtain ⟨i, hi, hc⟩ := List.mem_map.mp hmem
  obtain ⟨p, hp, hl⟩ := hs.live i hi
  rw [hp] at hc
  cases hc
  exact hl

end CommandProcessor

namespace CommandProcessor

variable {C E : Type} (K : CommandClasses C E) (newAddr : Allocator C)

/-- The two drain loops in a state that respects the ownership discipline. -/
theorem drain_owned (s : State C E) (hs : Owned s) :
    ∃ h' : Heap C,
      drain s = RunResult.returned { s with heap := h', undoStack := [], redoStack := [] } ∧
      h'.freed = s.heap.freed ++ (stackPtrs s.undoStack ++ stackPtrs s.redoStack) ∧
      h'.live = s.heap.live.filter
        (fun x => decide (x.1 ∉ stackPtrs s.undoStack ++ stackPtrs s.redoStack)) := by
  have hnodup := hs.ptrs_nodup
  have hlive := hs.ptrs_live
  obtain ⟨hnu, hnr, hdisj⟩ := List.nodup_append.mp hnodup
  obtain ⟨h1, hd1, hf1, hl1⟩ := drainStack_spec s.undoStack s.heap
    (fun q hq => hlive q (List.mem_append_left _ hq)) hnu
  have hlive1 : ∀ q ∈ stackPtrs s.redoStack, q ∈ h1.addrs := by
    intro q hq
    have hq0 := hlive q (List.mem_append_right _ hq)
    have hqu : q ∉ stackPtrs s.undoStack := fun hmem => hdisj hmem hq
    simp only [Heap.addrs, List.mem_map] at hq0 ⊢
    obtain ⟨x, hx, rfl⟩ := hq0
    exact ⟨x, by rw [hl1]; simp [List.mem_filter, hx, hqu], rfl⟩
  obtain ⟨h2, hd2, hf2, hl2⟩ := drainStack_spec s.redoStack h1 hlive1 hnr
  refine ⟨h2, by simp [drain, hd1, hd2], ?_, ?_⟩
  · rw [hf2, hf1, List.append_assoc]
  · rw [hl2, hl1, List.filter_filter]
    apply List.filter_congr
    intro x _
    simp only [List.mem_append, not_or, Bool.decide_and, Bool.and_comm]

/-- C7: when `new` never returns the address of a live object, in every state
the loop can be in no command pointer is held twice by the two stacks taken
together, none is null, and an undo or redo step moves exactly the top entry
of one stack to the top of the other, the other entries staying where they are. -/
theorem stacks_single_owner (hfresh : newAddr.Fresh) (s : State C E)
    (hs : Reachable K newAddr s) :
    ((s.undoStack ++ s.redoStack).map (fun i => i.command)).Nodup ∧
    (∀ i ∈ s.undoStack ++ s.redoStack,
      i.type = UserInteractionType.command ∧ ∃ p, i.command = some p ∧ p ∈ s.heap.addrs) ∧
    (∀ t rest, s.undoStack = t :: rest →
      ∃ s' : State C E, loopBody K s makeUndoInteraction = Outcome.next s' ∧
        s'.undoStack = rest ∧ s'.redoStack = t :: s.redoStack) ∧
    (∀ t rest, s.redoStack = t :: rest →
      ∃ s' : State C E,
        (loopBody K s makeRedoInteraction = Outcome.next s' ∨
          ∃ reason, loopBody K s makeRedoInteraction = Outcome.threw reason s') ∧
        s'.redoStack = rest ∧ s'.undoStack = t :: s.undoStack) := by
  have hown := hs.owned K newAddr hfresh
  refine ⟨hown.nodup, fun i hi => ⟨hown.isCommand i hi, hown.live i hi⟩, ?_, ?_⟩
  · intro t rest hu
    obtain ⟨p, obj, hp, ho⟩ := hown.deref_some t (by simp [hu])
    exact ⟨_, loopBody_undo_cons K s makeUndoInteraction t rest p obj rfl hu hp ho, rfl, rfl⟩
  · intro t rest hr
    obtain ⟨p, obj, hp, ho⟩ := hown.deref_some t (by simp [hr])
    cases hx : K.execute obj s.editor with
    | returned obj' e' =>
      exact ⟨_, Or.inl (loopBody_redo_returned K s makeRedoInteraction t rest p obj obj' e'
        rfl hr hp ho hx), rfl, rfl⟩
    | threw reason obj' e' =>
      exact ⟨_, Or.inr ⟨reason, loopBody_redo_threw K s makeRedoInteraction t rest p obj obj' e'
        reason rfl hr hp ho hx⟩, rfl, rfl⟩

/-- C8: in every state the loop can be in, a quit interaction makes `run` return
after deleting the command of every entry of the undo stack and then of the
redo stack, each exactly once and nothing else; both stacks end empty and the
document and the view are as they were. -/
theorem quit_drains (hfresh : newAddr.Fresh) (s : State C E) (hs : Reachable K newAddr s)
    (keys : List Keypress) :
    ∃ s' : State C E,
      resume K newAddr s (quitKey :: keys) = RunResult.returned s' ∧
      s'.undoStack = [] ∧ s'.redoStack = [] ∧ s'.editor = s.editor ∧ s'.view = s.view ∧
      s'.heap.freed = s.heap.freed ++ (stackPtrs s.undoStack ++ stackPtrs s.redoStack) ∧
      (stackPtrs s.undoStack ++ stackPtrs s.redoStack).Nodup ∧
      (s.undoStack ++ s.redoStack).map (fun i => i.command)
        = (stackPtrs s.undoStack ++ stackPtrs s.redoStack).map some ∧
      s'.heap.live = s.heap.live.filter
        (fun x => decide (x.1 ∉ stackPtrs s.undoStack ++ stackPtrs s.redoStack)) := by
  have hown := hs.owned K newAddr hfresh
  obtain ⟨h', hd, hf, hl⟩ := drain_owned s hown
  refine ⟨{ s with heap := h', undoStack := [], redoStack := [] }, ?_, rfl, rfl, rfl, rfl, hf,
    hown.ptrs_nodup, hown.map_command, hl⟩
  rw [resume_pass K newAddr s _ keys _ s.heap (nextUserInteraction_quitKey K newAddr keys s.heap)]
  exact hd

end CommandProcessor

/-! ## The steps that succeed (C9, C10) -/

namespace CommandProcessor

variable {C E : Type} (K : CommandClasses C E) (newAddr : Allocator C)

theorem reachable_afterUndo : Reachable lineCommands bumpAllocator LineEditor.afterUndo :=
  ⟨LineEditor.blank, [], Heap.empty,
    [{ ctrl := false, c := 'a' }, { ctrl := false, c := 'b' }, undoKey], rfl⟩

/-- C9 (amended): in every state the loop can be in, an undo interaction on an
undo stack with top entry `t` pops `t`, calls `undo` of its command once on the
document, pushes `t` onto the redo stack and clears the error message.  A redo
interaction on a redo stack with top entry `t` whose `execute` returns
normally is the mirror image: it pops `t`, calls `execute` of its command once
on the document, pushes `t` onto the undo stack and clears the error message. -/
theorem undo_redo_steps (hfresh : newAddr.Fresh) (s : State C E) (hs : Reachable K newAddr s)
    (t : UserInteraction) (rest : List UserInteraction) (u : UserInteraction) :
    (u.type = UserInteractionType.undo → s.undoStack = t :: rest →
      ∃ p obj, t.command = some p ∧ s.heap.deref p = some obj ∧
        loopBody K s u =
          Outcome.next
            { editor := (K.undo obj s.editor).2
              view := s.view ++ [ViewCall.clearErrorMessage, ViewCall.refresh]
              heap := s.heap.store p (K.undo obj s.editor).1
              undoStack := rest
              redoStack := t :: s.redoStack } ∧
        shownError (s.view ++ [ViewCall.clearErrorMessage, ViewCall.refresh]) = none) ∧
    (u.type = UserInteractionType.redo → s.redoStack = t :: rest →
      ∃ p obj, t.command = some p ∧ s.heap.deref p = some obj ∧
        ∀ obj' e', K.execute obj s.editor = ExecResult.returned obj' e' →
          loopBody K s u =
            Outcome.next
              { editor := e'
                view := s.view ++ [ViewCall.clearErrorMessage, ViewCall.refresh]
                heap := s.heap.store p obj'
                undoStack := t :: s.undoStack
                redoStack := rest } ∧
          shownError (s.view ++ [ViewCall.clearErrorMessage, ViewCall.refresh]) = none) := by
  have hown := hs.owned K newAddr hfresh
  constructor
  · intro hu hstack
    obtain ⟨p, obj, hp, ho⟩ := hown.deref_some t (by simp [hstack])
    exact ⟨p, obj, hp, ho, loopBody_undo_cons K s u t rest p obj hu hstack hp ho,
      shownError_clear _⟩
  · intro hu hstack
    obtain ⟨p, obj, hp, ho⟩ := hown.deref_some t (by simp [hstack])
    exact ⟨p, obj, hp, ho,
      fun obj' e' hx =>
        ⟨loopBody_redo_returned K s u t rest p obj obj' e' hu hstack hp ho hx,
          shownError_clear _⟩⟩

/-- C9 as stated fails: after `a`, Ctrl+U, Ctrl+Z, Ctrl+U and a further Ctrl+U that
fails, the redo stack holds the first `CursorLeft` and the message of the
failure is shown.  The redo interaction then is no mirror image of an undo:
its `execute` throws at column 0, the pass does not run to its end, no
`clearErrorMessage` is called and the message stays. -/
theorem redo_step_not_mirror :
    ∃ s s' : State LineCommand LineEditor,
      run lineCommands bumpAllocator LineEditor.blank [] Heap.empty
        [{ ctrl := false, c := 'a' }, { ctrl := true, c := 'U' }, undoKey,
          { ctrl := true, c := 'U' }, { ctrl := true, c := 'U' }] = RunResult.awaiting s ∧
      s.redoStack = [makeCommandInteraction (some 2)] ∧
      shownError s.view = some "Already at beginning" ∧
      loopBody lineCommands s makeRedoInteraction
        = Outcome.threw "Already at beginning" s' ∧
      (∀ s1, loopBody lineCommands s makeRedoInteraction ≠ Outcome.next s1) ∧
      s'.view = s.view ∧ shownError s'.view = some "Already at beginning" :=
  ⟨_, _, rfl, rfl, rfl, rfl, fun _ h => Outcome.noConfusion h, rfl, rfl⟩

/-- C10: a command interaction whose `execute` returns is pushed on top of the
undo stack, the entries below staying as they were, the error message is
cleared, the redo stack is left exactly as it was, and the loop goes on. -/
theorem successful_command_step (s : State C E) (keys rest : List Keypress)
    (i : UserInteraction) (h : Heap C) (p : Ptr) (obj obj' : C) (e' : E)
    (hn : nextUserInteraction K newAddr keys s.heap = some (i, rest, h))
    (hi : i.type = UserInteractionType.command) (hp : i.command = some p)
    (ho : h.deref p = some obj)
    (hx : K.execute obj s.editor = ExecResult.returned obj' e') :
    ∃ s' : State C E,
      loopBody K { s with heap := h } i = Outcome.next s' ∧
      resume K newAddr s keys = resume K newAddr s' rest ∧
      s'.undoStack = i :: s.undoStack ∧ s'.redoStack = s.redoStack ∧ s'.editor = e' ∧
      s'.view = s.view ++ [ViewCall.clearErrorMessage, ViewCall.refresh] ∧
      shownError s'.view = none := by
  have hb := loopBody_command_returned K { s with heap := h } i p obj obj' e' hi hp ho hx
  exact ⟨_, hb, resume_next K newAddr s _ keys rest i h hn hb, rfl, rfl, rfl, rfl,
    shownError_clear _⟩

end CommandProcessor

/-! ## Instances on the one-line document -/

namespace CommandProcessor

/-- Instance of C2: after `a`, `b` and an undo, typing `c` and `d`, then two
undos and two redos. -/
theorem resume_undos_redos_roundtrip_witness :
    (bumpAllocator : Allocator LineCommand).Fresh ∧ UndoExact lineCommands ∧
    ExecuteRepeats lineCommands ∧
    Reachable lineCommands bumpAllocator LineEditor.afterUndo ∧
    ExecutesAll lineCommands bumpAllocator LineEditor.afterUndo
      [{ ctrl := false, c := 'c' }, { ctrl := false, c := 'd' }] ∧
    ∃ s1 s3 : State LineCommand LineEditor,
      resume lineCommands bumpAllocator LineEditor.afterUndo
        [{ ctrl := false, c := 'c' }, { ctrl := false, c := 'd' }] = RunResult.awaiting s1 ∧
      resume lineCommands bumpAllocator LineEditor.afterUndo
        [{ ctrl := false, c := 'c' }, { ctrl := false, c := 'd' }, undoKey, undoKey,
          redoKey, redoKey] = RunResult.awaiting s3 ∧
      s3.editor = s1.editor ∧ s3.undoStack = s1.undoStack ∧ s3.redoStack = s1.redoStack :=
  have hok : ExecutesAll lineCommands bumpAllocator LineEditor.afterUndo
      [{ ctrl := false, c := 'c' }, { ctrl := false, c := 'd' }] :=
    ⟨_, _, _, _, _, _, rfl, rfl, rfl, rfl, _, _, _, _, _, _, rfl, rfl, rfl, rfl, trivial⟩
  ⟨bumpAllocator_fresh, lineCommands_undoExact, lineCommands_executeRepeats,
    reachable_afterUndo, hok,
    resume_undos_redos_roundtrip lineCommands bumpAllocator bumpAllocator_fresh
      lineCommands_undoExact lineCommands_executeRepeats LineEditor.afterUndo
      reachable_afterUndo _ hok⟩

/-- Instance of C7: the state after `a`, `b` and an undo. -/
theorem stacks_single_owner_witness :
    (bumpAllocator : Allocator LineCommand).Fresh ∧
    Reachable lineCommands bumpAllocator LineEditor.afterUndo ∧
    ((LineEditor.afterUndo.undoStack ++ LineEditor.afterUndo.redoStack).map
      (fun i => i.command)).Nodup ∧
    ∃ s' : State LineCommand LineEditor,
      loopBody lineCommands LineEditor.afterUndo makeUndoInteraction = Outcome.next s' ∧
      s'.undoStack = [] ∧
      s'.redoStack = makeCommandInteraction (some 1) :: LineEditor.afterUndo.redoStack :=
  ⟨bumpAllocator_fresh, reachable_afterUndo,
    (stacks_single_owner lineCommands bumpAllocator bumpAllocator_fresh LineEditor.afterUndo
      reachable_afterUndo).1,
    (stacks_single_owner lineCommands bumpAllocator bumpAllocator_fresh LineEditor.afterUndo
      reachable_afterUndo).2.2.1 (makeCommandInteraction (some 1)) [] rfl⟩

/-- Instance of C8: Ctrl+X in the state after `a`, `b` and an undo deletes the
objects at addresses 1 and 2. -/
theorem quit_drains_witness :
    (bumpAllocator : Allocator LineCommand).Fresh ∧
    Reachable lineCommands bumpAllocator LineEditor.afterUndo ∧
    ∃ s' : State LineCommand LineEditor,
      resume lineCommands bumpAllocator LineEditor.afterUndo [quitKey]
        = RunResult.returned s' ∧
      s'.undoStack = [] ∧ s'.redoStack = [] ∧ s'.editor = LineEditor.afterUndo.editor ∧
      s'.heap.freed = [] ++ ([1] ++ [2]) :=
  ⟨bumpAllocator_fresh, reachable_afterUndo,
    match quit_drains lineCommands bumpAllocator bumpAllocator_fresh LineEditor.afterUndo
      reachable_afterUndo [] with
    | ⟨s', hk, hu, hr, he, _, hf, _⟩ => ⟨s', hk, hu, hr, he, hf⟩⟩

/-- Instance of C9: an undo and a redo in the state after `a`, `b` and an undo. -/
theorem undo_redo_steps_witness :
    (bumpAllocator : Allocator LineCommand).Fresh ∧
    Reachable lineCommands bumpAllocator LineEditor.afterUndo ∧
    makeUndoInteraction.type = UserInteractionType.undo ∧
    LineEditor.afterUndo.undoStack = [makeCommandInteraction (some 1)] ∧
    (∃ p obj, (makeCommandInteraction (some 1)).command = some p ∧
      LineEditor.afterUndo.heap.deref p = some obj ∧
      loopBody lineCommands LineEditor.afterUndo makeUndoInteraction =
        Outcome.next
          { editor := (lineCommands.undo obj LineEditor.afterUndo.editor).2
            view := LineEditor.afterUndo.view ++ [ViewCall.clearErrorMessage, ViewCall.refresh]
            heap := LineEditor.afterUndo.heap.store p
              (lineCommands.undo obj LineEditor.afterUndo.editor).1
            undoStack := []
            redoStack := makeCommandInteraction (some 1) :: LineEditor.afterUndo.redoStack } ∧
      shownError (LineEditor.afterUndo.view ++ [ViewCall.clearErrorMessage, ViewCall.refresh])
        = none) ∧
    makeRedoInteraction.type = UserInteractionType.redo ∧
    LineEditor.afterUndo.redoStack = [makeCommandInteraction (some 2)] ∧
    lineCommands.execute { cls := CommandClass.InsertChar 'b', saved := none }
        LineEditor.afterUndo.editor
      = ExecResult.returned
          { cls := CommandClass.InsertChar 'b', saved := some LineEditor.afterUndo.editor }
          { text := ['a', 'b'], column := 2 } ∧
    ∃ s' : State LineCommand LineEditor,
      loopBody lineCommands LineEditor.afterUndo makeRedoInteraction = Outcome.next s' ∧
      s'.undoStack = [makeCommandInteraction (some 2), makeCommandInteraction (some 1)] ∧
      s'.redoStack = [] ∧ s'.editor = { text := ['a', 'b'], column := 2 } ∧
      shownError s'.view = none :=
  ⟨bumpAllocator_fresh, reachable_afterUndo, rfl, rfl,
    (undo_redo_steps lineCommands bumpAllocator bumpAllocator_fresh LineEditor.afterUndo
      reachable_afterUndo (makeCommandInteraction (some 1)) [] makeUndoInteraction).1 rfl rfl,
    rfl, rfl, rfl,
    by
      obtain ⟨p, obj, hp, ho, hstep⟩ :=
        (undo_redo_steps lineCommands bumpAllocator bumpAllocator_fresh LineEditor.afterUndo
          reachable_afterUndo (makeCommandInteraction (some 2)) []
          makeRedoInteraction).2 rfl rfl
      have hp2 : 2 = p := Option.some.inj hp
      subst hp2
      have ho2 : some ({ cls := CommandClass.InsertChar 'b', saved := none } : LineCommand)
          = some obj := ho
      have hobj := Option.some.inj ho2
      subst hobj
      exact ⟨_, (hstep _ _ rfl).1, rfl, rfl, rfl, (hstep _ _ rfl).2⟩⟩

/-- Instance of C10: typing `c` in the state after `a`, `b` and an undo keeps the
command of `b` on the redo stack. -/
theorem successful_command_step_witness :
    nextUserInteraction lineCommands bumpAllocator [{ ctrl := false, c := 'c' }]
        LineEditor.afterUndo.heap
      = some (makeCommandInteraction (some 3), [],
          LineEditor.afterUndo.heap.alloc 3 { cls := CommandClass.InsertChar 'c', saved := none }) ∧
    lineCommands.execute { cls := CommandClass.InsertChar 'c', saved := none }
        LineEditor.afterUndo.editor
      = ExecResult.returned
          { cls := CommandClass.InsertChar 'c', saved := some LineEditor.afterUndo.editor }
          { text := ['a', 'c'], column := 2 } ∧
    ∃ s' : State LineCommand LineEditor,
      resume lineCommands bumpAllocator LineEditor.afterUndo [{ ctrl := false, c := 'c' }]
        = resume lineCommands bumpAllocator s' [] ∧
      s'.undoStack = [makeCommandInteraction (some 3), makeCommandInteraction (some 1)] ∧
      s'.redoStack = [makeCommandInteraction (some 2)] ∧
      s'.editor = { text := ['a', 'c'], column := 2 } ∧ shownError s'.view = none :=
  ⟨rfl, rfl,
    match successful_command_step lineCommands bumpAllocator LineEditor.afterUndo
      [{ ctrl := false, c := 'c' }] [] (makeCommandInteraction (some 3))
      (LineEditor.afterUndo.heap.alloc 3 { cls := CommandClass.InsertChar 'c', saved := none }) 3
      { cls := CommandClass.InsertChar 'c', saved := none }
      { cls := CommandClass.InsertChar 'c', saved := some LineEditor.afterUndo.editor }
      { text := ['a', 'c'], column := 2 } rfl rfl rfl rfl rfl with
    | ⟨s', _, hres, hu, hr, he, _, hm⟩ => ⟨s', hres, hu, hr, he, hm⟩⟩

end CommandProcessor

/-! ## The classification of keypresses (C11, C12) -/

section Classification

variable {C E : Type} (K : CommandClasses C E) (newAddr : Allocator C)

/-- A control code outside the recognized set is skipped. -/
theorem nextUserInteraction_skip (key : Keypress) (rest : List Keypress) (h : Heap C)
    (hc : key.ctrl = true) (hr : recognized key.c = false) :
    nextUserInteraction K newAddr (key :: rest) h = nextUserInteraction K newAddr rest h := by
  rw [nextUserInteraction, if_pos hc]
  split
  all_goals first
    | rfl
    | (rename_i hk
       rw [hk] at hr
       exact absurd hr (by decide))

theorem nextUserInteraction_skip_all (skipped : List Keypress) (rest : List Keypress)
    (h : Heap C) (hs : ∀ k ∈ skipped, k.ctrl = true ∧ recognized k.c = false) :
    nextUserInteraction K newAddr (skipped ++ rest) h = nextUserInteraction K newAddr rest h := by
  induction skipped with
  | nil => rfl
  | cons k ks ih =>
    rw [List.cons_append,
      nextUserInteraction_skip K newAddr k _ h (hs k (List.mem_cons_self _ _)).1
        (hs k (List.mem_cons_self _ _)).2]
    exact ih (fun j hj => hs j (List.mem_cons_of_mem _ hj))

end Classification

section Classification

variable {C E : Type} (K : CommandClasses C E) (newAddr : Allocator C)

/-- What a keypress that is not skipped is turned into does not depend on
the heap or on the keypresses that follow. -/
theorem nextUserInteraction_classified (e : Keypress)
    (he : e.ctrl = false ∨ recognized e.c = true) :
    ∃ (ty : UserInteractionType) (cls : Option CommandClass),
      (ty = UserInteractionType.command ↔ cls ≠ none) ∧
      ∀ (rest : List Keypress) (h : Heap C),
        nextUserInteraction K newAddr (e :: rest) h = some (classified K newAddr ty cls rest h) := by
  obtain ⟨ctrl, c⟩ := e
  cases ctrl with
  | false =>
    exact ⟨UserInteractionType.command, some (CommandClass.InsertChar c), by simp,
      fun rest h => rfl⟩
  | true =>
    have hr : recognized c = true := by simpa using he
    simp only [recognized, List.mem_cons, List.mem_singleton, decide_eq_true_eq] at hr
    simp only [List.not_mem_nil, or_false] at hr
    rcases hr with rfl | rfl | rfl | rfl | rfl | rfl | rfl | rfl | rfl | rfl | rfl | rfl | rfl
    · exact ⟨UserInteractionType.quit, none, by simp, fun rest h => rfl⟩
    · exact ⟨UserInteractionType.command, some CommandClass.CursorRight, by simp,
        fun rest h => rfl⟩
    · exact ⟨UserInteractionType.command, some CommandClass.CursorLeft, by simp,
        fun rest h => rfl⟩
    · exact ⟨UserInteractionType.undo, none, by simp, fun rest h => rfl⟩
    · exact ⟨UserInteractionType.redo, none, by simp, fun rest h => rfl⟩
    · exact ⟨UserInteractionType.command, some CommandClass.CursorUp, by simp,
        fun rest h => rfl⟩
    · exact ⟨UserInteractionType.command, some CommandClass.CursorDown, by simp,
        fun rest h => rfl⟩
    · exact ⟨UserInteractionType.command, some CommandClass.CursorHome, by simp,
        fun rest h => rfl⟩
    · exact ⟨UserInteractionType.command, some CommandClass.CursorEnd, by simp,
        fun rest h => rfl⟩
    · exact ⟨UserInteractionType.command, some CommandClass.NewLine, by simp,
        fun rest h => rfl⟩
    · exact ⟨UserInteractionType.command, some CommandClass.NewLine, by simp,
        fun rest h => rfl⟩
    · exact ⟨UserInteractionType.command, some CommandClass.Backspace, by simp,
        fun rest h => rfl⟩
    · exact ⟨UserInteractionType.command, some CommandClass.DeleteLine, by simp,
        fun rest h => rfl⟩

/-- C11: a keypress without Ctrl, whatever its code, is turned into a command
interaction carrying a new `InsertChar` of that code; with Ctrl, `X` gives
quit, `Z` undo, `A` redo, `I`, `K`, `U`, `O` the cursor moves up, down, left,
right, `Y` and `P` home and end, `J` and `M` a new line, `H` a backspace and `D`
a line deletion.  Whatever is returned, a command interaction carries a
pointer to a live object just constructed, and the other types carry none. -/
theorem key_classification (rest : List Keypress) (h : Heap C) :
    (∀ c : Char, nextUserInteraction K newAddr ({ ctrl := false, c := c } :: rest) h
      = some (makeCommandInteraction (some (newAddr h)), rest,
          h.alloc (newAddr h) (K.construct (CommandClass.InsertChar c)))) ∧
    nextUserInteraction K newAddr ({ ctrl := true, c := 'X' } :: rest) h
      = some (makeQuitInteraction, rest, h) ∧
    nextUserInteraction K newAddr ({ ctrl := true, c := 'Z' } :: rest) h
      = some (makeUndoInteraction, rest, h) ∧
    nextUserInteraction K newAddr ({ ctrl := true, c := 'A' } :: rest) h
      = some (makeRedoInteraction, rest, h) ∧
    nextUserInteraction K newAddr ({ ctrl := true, c := 'I' } :: rest) h
      = some (makeCommandInteraction (some (newAddr h)), rest,
          h.alloc (newAddr h) (K.construct CommandClass.CursorUp)) ∧
    nextUserInteraction K newAddr ({ ctrl := true, c := 'K' } :: rest) h
      = some (makeCommandInteraction (some (newAddr h)), rest,
          h.alloc (newAddr h) (K.construct CommandClass.CursorDown)) ∧
    nextUserInteraction K newAddr ({ ctrl := true, c := 'U' } :: rest) h
      = some (makeCommandInteraction (some (newAddr h)), rest,
          h.alloc (newAddr h) (K.construct CommandClass.CursorLeft)) ∧
    nextUserInteraction K newAddr ({ ctrl := true, c := 'O' } :: rest) h
      = some (makeCommandInteraction (some (newAddr h)), rest,
          h.alloc (newAddr h) (K.construct CommandClass.CursorRight)) ∧
    nextUserInteraction K newAddr ({ ctrl := true, c := 'Y' } :: rest) h
      = some (makeCommandInteraction (some (newAddr h)), rest,
          h.alloc (newAddr h) (K.construct CommandClass.CursorHome)) ∧
    nextUserInteraction K newAddr ({ ctrl := true, c := 'P' } :: rest) h
      = some (makeCommandInteraction (some (newAddr h)), rest,
          h.alloc (newAddr h) (K.construct CommandClass.CursorEnd)) ∧
    nextUserInteraction K newAddr ({ ctrl := true, c := 'J' } :: rest) h
      = some (makeCommandInteraction (some (newAddr h)), rest,
          h.alloc (newAddr h) (K.construct CommandClass.NewLine)) ∧
    nextUserInteraction K newAddr ({ ctrl := true, c := 'M' } :: rest) h
      = some (makeCommandInteraction (some (newAddr h)), rest,
          h.alloc (newAddr h) (K.construct CommandClass.NewLine)) ∧
    nextUserInteraction K newAddr ({ ctrl := true, c := 'H' } :: rest) h
      = some (makeCommandInteraction (some (newAddr h)), rest,
          h.alloc (newAddr h) (K.construct CommandClass.Backspace)) ∧
    nextUserInteraction K newAddr ({ ctrl := true, c := 'D' } :: rest) h
      = some (makeCommandInteraction (some (newAddr h)), rest,
          h.alloc (newAddr h) (K.construct CommandClass.DeleteLine)) ∧
    (∀ (keys left : List Keypress) (i : UserInteraction) (h' : Heap C),
      nextUserInteraction K newAddr keys h = some (i, left, h') →
        (i.type = UserInteractionType.command →
          ∃ p cls, i.command = some p ∧ h'.deref p = some (K.construct cls)) ∧
        (i.type ≠ UserInteractionType.command → i.command = none)) := by
  refine ⟨fun c => rfl, rfl, rfl, rfl, rfl, rfl, rfl, rfl, rfl, rfl, rfl, rfl, rfl, rfl, ?_⟩
  intro keys left i h' hn
  rcases nextUserInteraction_cases K newAddr keys h i left h' hn with
    ⟨_, hnone, hty⟩ | ⟨cls, rfl, rfl⟩
  · exact ⟨fun hc => absurd hc hty, fun _ => hnone⟩
  · refine ⟨fun _ => ⟨newAddr h, cls, rfl, by simp [Heap.deref_alloc]⟩, fun hne => ?_⟩
    exact absurd rfl hne

/-- C12: any number of Ctrl keypresses with codes outside the recognized set,
followed by a keypress `e` that is without Ctrl or recognized, are consumed
together with `e` and nothing more; no object is allocated for the skipped
ones, and what is returned is what `e` alone gives: an interaction whose type
and command class depend on `e` only, neither on the skipped keypresses nor on
the heap that earlier interactions left. -/
theorem unrecognized_keys_skipped (skipped : List Keypress) (e : Keypress)
    (rest : List Keypress)
    (hs : ∀ k ∈ skipped, k.ctrl = true ∧ recognized k.c = false)
    (he : e.ctrl = false ∨ recognized e.c = true) :
    ∃ (ty : UserInteractionType) (cls : Option CommandClass),
      (ty = UserInteractionType.command ↔ cls ≠ none) ∧
      ∀ h : Heap C,
        nextUserInteraction K newAddr [e] h = some (classified K newAddr ty cls [] h) ∧
        nextUserInteraction K newAddr (skipped ++ e :: rest) h
          = some (classified K newAddr ty cls rest h) ∧
        (skipped ++ e :: rest).length = rest.length + (skipped.length + 1) := by
  obtain ⟨ty, cls, hty, hcl⟩ := nextUserInteraction_classified K newAddr e he
  refine ⟨ty, cls, hty, fun h => ⟨hcl [] h, ?_, ?_⟩⟩
  · rw [nextUserInteraction_skip_all K newAddr skipped (e :: rest) h hs]
    exact hcl rest h
  · simp only [List.length_append, List.length_cons]
    omega

end Classification

/-- Instance of C11: Ctrl+Q is skipped and `x` then gives a command interaction
whose pointer leads to a newly constructed object. -/
theorem key_classification_witness :
    nextUserInteraction lineCommands bumpAllocator
        [{ ctrl := true, c := 'Q' }, { ctrl := false, c := 'x' }] Heap.empty
      = some (makeCommandInteraction (some 1), [],
          Heap.empty.alloc 1 { cls := CommandClass.InsertChar 'x', saved := none }) ∧
    (makeCommandInteraction (some 1)).type = UserInteractionType.command ∧
    ∃ p cls, (makeCommandInteraction (some 1)).command = some p ∧
      (Heap.empty.alloc 1
          ({ cls := CommandClass.InsertChar 'x', saved := none } : LineCommand)).deref p
        = some (lineCommands.construct cls) :=
  ⟨rfl, rfl,
    match key_classification lineCommands bumpAllocator [] Heap.empty with
    | ⟨_, _, _, _, _, _, _, _, _, _, _, _, _, _, hlast⟩ =>
      (hlast [{ ctrl := true, c := 'Q' }, { ctrl := false, c := 'x' }] []
        (makeCommandInteraction (some 1))
        (Heap.empty.alloc 1 { cls := CommandClass.InsertChar 'x', saved := none }) rfl).1 rfl⟩

/-- Instance of C12: Ctrl+Q and Ctrl+B are skipped before Ctrl+Z, and the `a`
that follows is left unread. -/
theorem unrecognized_keys_skipped_witness :
    (∀ k ∈ [({ ctrl := true, c := 'Q' } : Keypress), { ctrl := true, c := 'B' }],
      k.ctrl = true ∧ recognized k.c = false) ∧
    (undoKey.ctrl = false ∨ recognized undoKey.c = true) ∧
    ∃ (ty : UserInteractionType) (cls : Option CommandClass),
      (ty = UserInteractionType.command ↔ cls ≠ none) ∧
      ∀ h : Heap LineCommand,
        nextUserInteraction lineCommands bumpAllocator [undoKey] h
          = some (classified lineCommands bumpAllocator ty cls [] h) ∧
        nextUserInteraction lineCommands bumpAllocator
            ([{ ctrl := true, c := 'Q' }, { ctrl := true, c := 'B' }] ++
              undoKey :: [{ ctrl := false, c := 'a' }]) h
          = some (classified lineCommands bumpAllocator ty cls [{ ctrl := false, c := 'a' }] h) ∧
        ([({ ctrl := true, c := 'Q' } : Keypress), { ctrl := true, c := 'B' }] ++
            undoKey :: [{ ctrl := false, c := 'a' }]).length
          = [({ ctrl := false, c := 'a' } : Keypress)].length +
            ([({ ctrl := true, c := 'Q' } : Keypress), { ctrl := true, c := 'B' }].length + 1) :=
  ⟨by decide, by decide,
    unrecognized_keys_skipped lineCommands bumpAllocator
      [{ ctrl := true, c := 'Q' }, { ctrl := true, c := 'B' }] undoKey
      [{ ctrl := false, c := 'a' }] (by decide) (by decide)⟩

/-! ## The scenario (C13) -/

namespace CommandProcessor

/-- C13: on the empty buffer with the cursor at (0,0), where `InsertChar(c)`
inserts `c` at the cursor and its undo removes it, typing `a` and `b` gives the
buffer "ab", the cursor (0,2) and the undo stack holding Insert a below
Insert b.  A first undo gives "a", cursor (0,1) and the redo stack holding
Insert b; a second undo gives the empty buffer, cursor (0,0) and the redo
stack holding Insert b below Insert a; a redo gives "a"; quit then makes `run`
return with both stacks empty and both objects deleted. -/
theorem scenario_insert_undo_redo_quit :
    (∃ s : State CommandClass Document,
      run insertCommands bumpAllocator Document.empty [] Heap.empty
        [{ ctrl := false, c := 'a' }, { ctrl := false, c := 'b' }] = RunResult.awaiting s ∧
      s.editor = { buffer := ['a', 'b'], cursor := (0, 2) } ∧
      stackClasses s.heap s.undoStack
        = [some (CommandClass.InsertChar 'a'), some (CommandClass.InsertChar 'b')] ∧
      s.redoStack = []) ∧
    (∃ s : State CommandClass Document,
      run insertCommands bumpAllocator Document.empty [] Heap.empty
        [{ ctrl := false, c := 'a' }, { ctrl := false, c := 'b' }, undoKey]
        = RunResult.awaiting s ∧
      s.editor = { buffer := ['a'], cursor := (0, 1) } ∧
      stackClasses s.heap s.undoStack = [some (CommandClass.InsertChar 'a')] ∧
      stackClasses s.heap s.redoStack = [some (CommandClass.InsertChar 'b')]) ∧
    (∃ s : State CommandClass Document,
      run insertCommands bumpAllocator Document.empty [] Heap.empty
        [{ ctrl := false, c := 'a' }, { ctrl := false, c := 'b' }, undoKey, undoKey]
        = RunResult.awaiting s ∧
      s.editor = { buffer := [], cursor := (0, 0) } ∧
      s.undoStack = [] ∧
      stackClasses s.heap s.redoStack
        = [some (CommandClass.InsertChar 'b'), some (CommandClass.InsertChar 'a')]) ∧
    (∃ s : State CommandClass Document,
      run insertCommands bumpAllocator Document.empty [] Heap.empty
        [{ ctrl := false, c := 'a' }, { ctrl := false, c := 'b' }, undoKey, undoKey, redoKey]
        = RunResult.awaiting s ∧
      s.editor.buffer = ['a'] ∧
      stackClasses s.heap s.undoStack = [some (CommandClass.InsertChar 'a')] ∧
      stackClasses s.heap s.redoStack = [some (CommandClass.InsertChar 'b')]) ∧
    (∃ s : State CommandClass Document,
      run insertCommands bumpAllocator Document.empty [] Heap.empty
        [{ ctrl := false, c := 'a' }, { ctrl := false, c := 'b' }, undoKey, undoKey, redoKey,
          quitKey] = RunResult.returned s ∧
      s.editor.buffer = ['a'] ∧ s.undoStack = [] ∧ s.redoStack = [] ∧
      s.heap.live = [] ∧ s.heap.freed = [1, 2]) :=
  ⟨⟨_, rfl, rfl, rfl, rfl⟩, ⟨_, rfl, rfl, rfl, rfl⟩, ⟨_, rfl, rfl, rfl, rfl⟩,
    ⟨_, rfl, rfl, rfl, rfl⟩, ⟨_, rfl, rfl, rfl, rfl, rfl, rfl⟩⟩

end CommandProcessor

/-! ## What a pass does to the histories (C14) -/

namespace CommandProcessor

variable {C E : Type} (K : CommandClasses C E) (newAddr : Allocator C)

theorem executeReturns_of_not_command (s : State C E) (i : UserInteraction)
    (hi : i.type ≠ UserInteractionType.command) : executeReturns K s i = false := by
  unfold executeReturns
  split
  · rename_i hty _
    exact absurd hty hi
  · rfl

theorem executeReturns_returned (s : State C E) (i : UserInteraction) (p : Ptr) (obj obj' : C)
    (e' : E) (hi : i.type = UserInteractionType.command) (hp : i.command = some p)
    (ho : s.heap.deref p = some obj)
    (hx : K.execute obj s.editor = ExecResult.returned obj' e') :
    executeReturns K s i = true := by
  simp [executeReturns, hi, hp, ho, hx]

theorem executeReturns_threw (s : State C E) (i : UserInteraction) (p : Ptr) (obj obj' : C)
    (e' : E) (reason : String) (hi : i.type = UserInteractionType.command)
    (hp : i.command = some p) (ho : s.heap.deref p = some obj)
    (hx : K.execute obj s.editor = ExecResult.threw reason obj' e') :
    executeReturns K s i = false := by
  simp [executeReturns, hi, hp, ho, hx]

/-- A pass that runs to its end changes the total size of the two stacks by
one when it executed a command successfully, and not at all otherwise. -/
theorem loopBody_next_lengths (s s' : State C E) (i : UserInteraction)
    (hb : loopBody K s i = Outcome.next s') :
    s'.undoStack.length + s'.redoStack.length
      = s.undoStack.length + s.redoStack.length + (if executeReturns K s i then 1 else 0) := by
  cases hty : i.type with
  | quit => simp [loopBody, hty] at hb
  | undo =>
    rw [executeReturns_of_not_command K s i (by simp [hty])]
    have hshape : s.undoStack = [] ∨ ∃ t rest, s.undoStack = t :: rest := by
      cases s.undoStack with
      | nil => exact Or.inl rfl
      | cons t rest => exact Or.inr ⟨t, rest, rfl⟩
    rcases hshape with hu | ⟨t, rest, hu⟩
    · rw [loopBody_undo_empty K s i hty hu] at hb
      cases hb
      simp
    · cases hp : t.command with
      | none => simp [loopBody, hty, hu, hp] at hb
      | some p =>
        cases ho : s.heap.deref p with
        | none => simp [loopBody, hty, hu, hp, ho] at hb
        | some obj =>
          rw [loopBody_undo_cons K s i t rest p obj hty hu hp ho] at hb
          cases hb
          simp [hu]
          omega
  | redo =>
    rw [executeReturns_of_not_command K s i (by simp [hty])]
    have hshape : s.redoStack = [] ∨ ∃ t rest, s.redoStack = t :: rest := by
      cases s.redoStack with
      | nil => exact Or.inl rfl
      | cons t rest => exact Or.inr ⟨t, rest, rfl⟩
    rcases hshape with hr | ⟨t, rest, hr⟩
    · rw [loopBody_redo_empty K s i hty hr] at hb
      cases hb
      simp
    · cases hp : t.command with
      | none => simp [loopBody, hty, hr, hp] at hb
      | some p =>
        cases ho : s.heap.deref p with
        | none => simp [loopBody, hty, hr, hp, ho] at hb
        | some obj =>
          cases hx : K.execute obj s.editor with
          | returned obj' e' =>
            rw [loopBody_redo_returned K s i t rest p obj obj' e' hty hr hp ho hx] at hb
            cases hb
            simp [hr]
            omega
          | threw reason obj' e' =>
            rw [loopBody_redo_threw K s i t rest p obj obj' e' reason hty hr hp ho hx] at hb
            cases hb
  | command =>
    cases hp : i.command with
    | none => simp [loopBody, hty, hp] at hb
    | some p =>
      cases ho : s.heap.deref p with
      | none => simp [loopBody, hty, hp, ho] at hb
      | some obj =>
        cases hx : K.execute obj s.editor with
        | returned obj' e' =>
          rw [loopBody_command_returned K s i p obj obj' e' hty hp ho hx] at hb
          rw [executeReturns_returned K s i p obj obj' e' hty hp ho hx]
          cases hb
          simp
          omega
        | threw reason obj' e' =>
          rw [loopBody_command_threw K s i p obj obj' e' reason hty hp ho hx] at hb
          rw [executeReturns_threw K s i p obj obj' e' reason hty hp ho hx]
          cases hb
          simp

/-- Along the loop, the total size of the two stacks grows by the number of
passes that executed a command successfully. -/
theorem runLoop_lengths :
    ∀ (fuel : Nat) (s s' : State C E) (keys : List Keypress),
      runLoop K newAddr fuel s keys = RunResult.awaiting s' →
      s'.undoStack.length + s'.redoStack.length
        = s.undoStack.length + s.redoStack.length +
          ((history K newAddr fuel s keys).filter
            (fun pass => executeReturns K pass.1 pass.2)).length := by
  intro fuel
  induction fuel with
  | zero => intro s s' keys hk; simp [runLoop] at hk
  | succ fuel ih =>
    intro s s' keys hk
    simp only [runLoop, history] at hk ⊢
    cases hn : nextUserInteraction K newAddr keys s.heap with
    | none =>
      rw [hn] at hk
      cases hk
      simp
    | some r =>
      obtain ⟨i, rest, h⟩ := r
      rw [hn] at hk
      dsimp only at hk ⊢
      cases hb : loopBody K { s with heap := h } i with
      | next s1 =>
        rw [hb] at hk
        have hstep := loopBody_next_lengths K _ s1 i hb
        have hrec := ih s1 s' rest hk
        simp only [List.filter_cons]
        split <;> rename_i hex
        · rw [hex] at hstep
          simp only [List.length_cons]
          simp only [if_true] at hstep
          omega
        · have hex' : executeReturns K { s with heap := h } i = false := by simpa using hex
          rw [hex'] at hstep
          simp at hstep
          omega
      | exit s1 =>
        rw [hb] at hk
        exact absurd hk (drain_ne_awaiting s1 s')
      | threw r s1 =>
        rw [hb] at hk
        simp at hk
      | undefined =>
        rw [hb] at hk
        simp at hk

end CommandProcessor

namespace CommandProcessor

variable {C E : Type} (K : CommandClasses C E) (newAddr : Allocator C)

/-- What one pass on an interaction other than quit does to the entries of the
two stacks, in a state that respects the ownership discipline. -/
theorem pass_shuffles_or_grows (hfresh : newAddr.Fresh) (s : State C E) (hs : Owned s)
    (keys rest : List Keypress) (i : UserInteraction) (h : Heap C)
    (hn : nextUserInteraction K newAddr keys s.heap = some (i, rest, h))
    (hq : i.type ≠ UserInteractionType.quit) :
    ∃ s' : State C E,
      (loopBody K { s with heap := h } i = Outcome.next s' ∨
        ∃ reason, loopBody K { s with heap := h } i = Outcome.threw reason s') ∧
      (executeReturns K { s with heap := h } i = false →
        (s'.undoStack ++ s'.redoStack).Perm (s.undoStack ++ s.redoStack)) ∧
      (executeReturns K { s with heap := h } i = true →
        s'.undoStack = i :: s.undoStack ∧ s'.redoStack = s.redoStack ∧
          i ∉ s.undoStack ++ s.redoStack) := by
  rcases nextUserInteraction_cases K newAddr keys s.heap i rest h hn with
    ⟨rfl, _, hty⟩ | ⟨cls, rfl, rfl⟩
  · have hfalse := executeReturns_of_not_command K s i hty
    have hsame : ({ s with heap := s.heap } : State C E) = s := rfl
    rw [hsame]
    cases hty' : i.type with
    | command => exact absurd hty' hty
    | quit => exact absurd hty' hq
    | undo =>
      have hshape : s.undoStack = [] ∨ ∃ t below, s.undoStack = t :: below := by
        cases s.undoStack with
        | nil => exact Or.inl rfl
        | cons t below => exact Or.inr ⟨t, below, rfl⟩
      rcases hshape with hu | ⟨t, below, hu⟩
      · exact ⟨_, Or.inl (loopBody_undo_empty K s i hty' hu), fun _ => List.Perm.refl _,
          fun ht => by rw [hfalse] at ht; cases ht⟩
      · obtain ⟨p, obj, hp, ho⟩ := hs.deref_some t (by simp [hu])
        refine ⟨_, Or.inl (loopBody_undo_cons K s i t below p obj hty' hu hp ho), fun _ => ?_,
          fun ht => by rw [hfalse] at ht; cases ht⟩
        simp only [hu]
        exact List.perm_middle
    | redo =>
      have hshape : s.redoStack = [] ∨ ∃ t below, s.redoStack = t :: below := by
        cases s.redoStack with
        | nil => exact Or.inl rfl
        | cons t below => exact Or.inr ⟨t, below, rfl⟩
      rcases hshape with hr | ⟨t, below, hr⟩
      · exact ⟨_, Or.inl (loopBody_redo_empty K s i hty' hr), fun _ => List.Perm.refl _,
          fun ht => by rw [hfalse] at ht; cases ht⟩
      · obtain ⟨p, obj, hp, ho⟩ := hs.deref_some t (by simp [hr])
        cases hx : K.execute obj s.editor with
        | returned obj' e' =>
          refine ⟨_, Or.inl (loopBody_redo_returned K s i t below p obj obj' e' hty' hr hp ho hx),
            fun _ => ?_, fun ht => by rw [hfalse] at ht; cases ht⟩
          simp only [hr]
          exact List.perm_middle.symm
        | threw reason obj' e' =>
          refine ⟨_, Or.inr ⟨reason,
            loopBody_redo_threw K s i t below p obj obj' e' reason hty' hr hp ho hx⟩,
            fun _ => ?_, fun ht => by rw [hfalse] at ht; cases ht⟩
          simp only [hr]
          exact List.perm_middle.symm
  · have ho : (s.heap.alloc (newAddr s.heap) (K.construct cls)).deref (newAddr s.heap)
        = some (K.construct cls) := by simp [Heap.deref_alloc]
    have hnot := hs.not_mem_of_fresh (newAddr s.heap) (hfresh s.heap)
    cases hx : K.execute (K.construct cls) s.editor with
    | returned obj' e' =>
      refine ⟨_, Or.inl (loopBody_command_returned K
        { s with heap := s.heap.alloc (newAddr s.heap) (K.construct cls) }
        (makeCommandInteraction (some (newAddr s.heap))) (newAddr s.heap) (K.construct cls)
        obj' e' rfl rfl ho hx), fun hf => ?_, fun _ => ⟨rfl, rfl, ?_⟩⟩
      · have hret := executeReturns_returned K
          { s with heap := s.heap.alloc (newAddr s.heap) (K.construct cls) }
          (makeCommandInteraction (some (newAddr s.heap))) (newAddr s.heap) (K.construct cls)
          obj' e' rfl rfl ho hx
        cases hret.symm.trans hf
      · intro hmem
        exact hnot (List.mem_map.mpr ⟨_, hmem, rfl⟩)
    | threw reason obj' e' =>
      refine ⟨_, Or.inl (loopBody_command_threw K
        { s with heap := s.heap.alloc (newAddr s.heap) (K.construct cls) }
        (makeCommandInteraction (some (newAddr s.heap))) (newAddr s.heap) (K.construct cls)
        obj' e' reason rfl rfl ho hx), fun _ => List.Perm.refl _, fun ht => ?_⟩
      have hthr := executeReturns_threw K
        { s with heap := s.heap.alloc (newAddr s.heap) (K.construct cls) }
        (makeCommandInteraction (some (newAddr s.heap))) (newAddr s.heap) (K.construct cls)
        obj' e' reason rfl rfl ho hx
      cases hthr.symm.trans ht

/-- C14: in every state the loop can be in, a pass on an interaction other than
quit either leaves the entries of the two stacks taken together as they were
(undo, redo, empty history, failed command) or, when it executed a command
successfully, adds exactly this new command on top of the undo stack; no entry
is ever dropped.  Hence, whenever `run` waits for a keypress, the two stacks
together hold as many entries as commands were executed successfully. -/
theorem histories_grow_or_shuffle (hfresh : newAddr.Fresh) :
    (∀ (s : State C E), Reachable K newAddr s →
      ∀ (keys rest : List Keypress) (i : UserInteraction) (h : Heap C),
        nextUserInteraction K newAddr keys s.heap = some (i, rest, h) →
        i.type ≠ UserInteractionType.quit →
        ∃ s' : State C E,
          (loopBody K { s with heap := h } i = Outcome.next s' ∨
            ∃ reason, loopBody K { s with heap := h } i = Outcome.threw reason s') ∧
          (∀ j ∈ s.undoStack ++ s.redoStack, j ∈ s'.undoStack ++ s'.redoStack) ∧
          (executeReturns K { s with heap := h } i = false →
            (s'.undoStack ++ s'.redoStack).Perm (s.undoStack ++ s.redoStack)) ∧
          (executeReturns K { s with heap := h } i = true →
            s'.undoStack = i :: s.undoStack ∧ s'.redoStack = s.redoStack ∧
              i ∉ s.undoStack ++ s.redoStack)) ∧
    (∀ (editor : E) (view : List ViewCall) (heap : Heap C) (keys : List Keypress)
      (s : State C E), run K newAddr editor view heap keys = RunResult.awaiting s →
        s.undoStack.length + s.redoStack.length = successes K newAddr editor view heap keys) := by
  constructor
  · intro s hs keys rest i h hn hq
    obtain ⟨s', hb, hperm, hgrow⟩ :=
      pass_shuffles_or_grows K newAddr hfresh s (hs.owned K newAddr hfresh) keys rest i h hn hq
    refine ⟨s', hb, ?_, hperm, hgrow⟩
    intro j hj
    cases hex : executeReturns K { s with heap := h } i with
    | false => exact (hperm hex).mem_iff.mpr hj
    | true =>
      obtain ⟨hu, hr, _⟩ := hgrow hex
      rw [hu, hr]
      exact List.mem_cons_of_mem _ hj
  · intro editor view heap keys s hk
    have hlen := runLoop_lengths K newAddr (keys.length + 1) (start editor view heap) s keys hk
    simpa [start, successes] using hlen

end CommandProcessor

/-- Instance of C14: the state after `a`, `b` and an undo holds two entries, and
two commands were executed successfully. -/
theorem CommandProcessor.histories_grow_or_shuffle_witness :
    (bumpAllocator : Allocator LineCommand).Fresh ∧
    CommandProcessor.run lineCommands bumpAllocator LineEditor.blank [] Heap.empty
      [{ ctrl := false, c := 'a' }, { ctrl := false, c := 'b' }, undoKey]
      = CommandProcessor.RunResult.awaiting LineEditor.afterUndo ∧
    LineEditor.afterUndo.undoStack.length + LineEditor.afterUndo.redoStack.length
      = CommandProcessor.successes lineCommands bumpAllocator LineEditor.blank [] Heap.empty
          [{ ctrl := false, c := 'a' }, { ctrl := false, c := 'b' }, undoKey] :=
  ⟨CommandProcessor.bumpAllocator_fresh, rfl,
    (CommandProcessor.histories_grow_or_shuffle lineCommands bumpAllocator
      CommandProcessor.bumpAllocator_fresh).2 LineEditor.blank [] Heap.empty
      [{ ctrl := false, c := 'a' }, { ctrl := false, c := 'b' }, undoKey]
      LineEditor.afterUndo rfl⟩

/-! ## The presentation calls (C15) -/

theorem withRefresh_append (xs ys : List ViewCall) :
    withRefresh (xs ++ ys) = withRefresh xs ++ withRefresh ys := by
  induction xs with
  | nil => rfl
  | cons x xs ih => simp [withRefresh, ih]

theorem count_withRefresh (firsts : List ViewCall)
    (hf : ∀ c ∈ firsts, c = ViewCall.clearErrorMessage ∨ ∃ m, c = ViewCall.showErrorMessage m) :
    (withRefresh firsts).count ViewCall.refresh = firsts.length := by
  induction firsts with
  | nil => rfl
  | cons c cs ih =>
    have hc : c ≠ ViewCall.refresh := by
      rcases hf c (List.mem_cons_self _ _) with rfl | ⟨m, rfl⟩ <;> simp
    have hrec := ih (fun x hx => hf x (List.mem_cons_of_mem _ hx))
    simp only [withRefresh, List.length_cons]
    rw [List.count_cons_of_ne hc.symm, List.count_cons_self, hrec]

namespace CommandProcessor

variable {C E : Type} (K : CommandClasses C E) (newAddr : Allocator C)

/-- A pass that runs to its end makes exactly two presentation calls: a
`showErrorMessage` or a `clearErrorMessage`, then a `refresh`. -/
theorem loopBody_next_view (s s' : State C E) (i : UserInteraction)
    (hb : loopBody K s i = Outcome.next s') :
    ∃ c : ViewCall, (c = ViewCall.clearErrorMessage ∨ ∃ m, c = ViewCall.showErrorMessage m) ∧
      s'.view = s.view ++ [c, ViewCall.refresh] := by
  cases hty : i.type with
  | quit => simp [loopBody, hty] at hb
  | undo =>
    have hshape : s.undoStack = [] ∨ ∃ t rest, s.undoStack = t :: rest := by
      cases s.undoStack with
      | nil => exact Or.inl rfl
      | cons t rest => exact Or.inr ⟨t, rest, rfl⟩
    rcases hshape with hu | ⟨t, rest, hu⟩
    · rw [loopBody_undo_empty K s i hty hu] at hb
      cases hb
      exact ⟨_, Or.inr ⟨_, rfl⟩, rfl⟩
    · cases hp : t.command with
      | none => simp [loopBody, hty, hu, hp] at hb
      | some p =>
        cases ho : s.heap.deref p with
        | none => simp [loopBody, hty, hu, hp, ho] at hb
        | some obj =>
          rw [loopBody_undo_cons K s i t rest p obj hty hu hp ho] at hb
          cases hb
          exact ⟨_, Or.inl rfl, rfl⟩
  | redo =>
    have hshape : s.redoStack = [] ∨ ∃ t rest, s.redoStack = t :: rest := by
      cases s.redoStack with
      | nil => exact Or.inl rfl
      | cons t rest => exact Or.inr ⟨t, rest, rfl⟩
    rcases hshape with hr | ⟨t, rest, hr⟩
    · rw [loopBody_redo_empty K s i hty hr] at hb
      cases hb
      exact ⟨_, Or.inr ⟨_, rfl⟩, rfl⟩
    · cases hp : t.command with
      | none => simp [loopBody, hty, hr, hp] at hb
      | some p =>
        cases ho : s.heap.deref p with
        | none => simp [loopBody, hty, hr, hp, ho] at hb
        | some obj =>
          cases hx : K.execute obj s.editor with
          | returned obj' e' =>
            rw [loopBody_redo_returned K s i t rest p obj obj' e' hty hr hp ho hx] at hb
            cases hb
            exact ⟨_, Or.inl rfl, rfl⟩
          | threw reason obj' e' =>
            rw [loopBody_redo_threw K s i t rest p obj obj' e' reason hty hr hp ho hx] at hb
            cases hb
  | command =>
    cases hp : i.command with
    | none => simp [loopBody, hty, hp] at hb
    | some p =>
      cases ho : s.heap.deref p with
      | none => simp [loopBody, hty, hp, ho] at hb
      | some obj =>
        cases hx : K.execute obj s.editor with
        | returned obj' e' =>
          rw [loopBody_command_returned K s i p obj obj' e' hty hp ho hx] at hb
          cases hb
          exact ⟨_, Or.inl rfl, rfl⟩
        | threw reason obj' e' =>
          rw [loopBody_command_threw K s i p obj obj' e' reason hty hp ho hx] at hb
          cases hb
          exact ⟨_, Or.inr ⟨_, rfl⟩, rfl⟩

/-- The pass that reaches `break` changes nothing. -/
theorem loopBody_exit (s s' : State C E) (i : UserInteraction)
    (hb : loopBody K s i = Outcome.exit s') : s' = s ∧ i.type = UserInteractionType.quit := by
  unfold loopBody at hb
  split at hb
  · cases hb
    rename_i hty
    exact ⟨rfl, hty⟩
  all_goals (repeat' split at hb) <;> cases hb

/-- The drain loops make no presentation call and leave the document alone. -/
theorem drain_view (s sf : State C E) (hd : drain s = RunResult.returned sf) :
    sf.view = s.view ∧ sf.editor = s.editor := by
  unfold drain at hd
  split at hd
  · cases hd
  · split at hd
    · cases hd
    · cases hd
      exact ⟨rfl, rfl⟩

end CommandProcessor

namespace CommandProcessor

variable {C E : Type} (K : CommandClasses C E) (newAddr : Allocator C)

/-- When the loop ends by a quit, the presentation calls made from state `s` on
are those of the passes that ran to their end: two per pass, the second a
`refresh`, and none for the quit and the drain. -/
theorem runLoop_returned_view :
    ∀ (fuel : Nat) (s sf : State C E) (keys : List Keypress),
      runLoop K newAddr fuel s keys = RunResult.returned sf →
      ∃ firsts : List ViewCall,
        firsts.length = (history K newAddr fuel s keys).length ∧
        (∀ c ∈ firsts, c = ViewCall.clearErrorMessage ∨ ∃ m, c = ViewCall.showErrorMessage m) ∧
        sf.view = s.view ++ withRefresh firsts := by
  intro fuel
  induction fuel with
  | zero => intro s sf keys hk; simp [runLoop] at hk
  | succ fuel ih =>
    intro s sf keys hk
    simp only [runLoop, history] at hk ⊢
    cases hn : nextUserInteraction K newAddr keys s.heap with
    | none =>
      rw [hn] at hk
      cases hk
    | some r =>
      obtain ⟨i, rest, h⟩ := r
      rw [hn] at hk
      dsimp only at hk ⊢
      cases hb : loopBody K { s with heap := h } i with
      | next s1 =>
        rw [hb] at hk
        obtain ⟨c, hc, hv⟩ := loopBody_next_view K _ s1 i hb
        obtain ⟨fs, hlen, hall, hview⟩ := ih s1 sf rest hk
        refine ⟨c :: fs, by simp [hlen], ?_, ?_⟩
        · intro x hx
          rcases List.mem_cons.mp hx with rfl | hx
          · exact hc
          · exact hall x hx
        · rw [hview, hv]
          simp [withRefresh]
      | exit s1 =>
        rw [hb] at hk
        obtain ⟨hs1, _⟩ := loopBody_exit K _ s1 i hb
        have hv := (drain_view s1 sf hk).1
        refine ⟨[], rfl, by simp, ?_⟩
        rw [hv, hs1]
        simp [withRefresh]
      | threw r s1 =>
        rw [hb] at hk
        cases hk
      | undefined =>
        rw [hb] at hk
        cases hk

theorem keyType_none (key : Keypress) (hk : keyType key = none) (rest : List Keypress)
    (h : Heap C) :
    nextUserInteraction K newAddr (key :: rest) h = nextUserInteraction K newAddr rest h := by
  unfold keyType at hk
  split_ifs at hk with hc h1 h2 h3 h4
  exact nextUserInteraction_skip K newAddr key rest h hc (by simpa using h4)

theorem keyType_some (key : Keypress) (ty : UserInteractionType) (hk : keyType key = some ty)
    (rest : List Keypress) (h : Heap C) :
    ∃ (i : UserInteraction) (h' : Heap C),
      nextUserInteraction K newAddr (key :: rest) h = some (i, rest, h') ∧ i.type = ty := by
  obtain ⟨ctrl, c⟩ := key
  cases ctrl with
  | false =>
    have hty : UserInteractionType.command = ty := by simpa [keyType] using hk
    subst hty
    exact ⟨_, _, rfl, rfl⟩
  | true =>
    simp only [keyType, if_true] at hk
    split_ifs at hk with h1 h2 h3 h4
    · subst h1
      cases hk
      exact ⟨_, _, rfl, rfl⟩
    · subst h2
      cases hk
      exact ⟨_, _, rfl, rfl⟩
    · subst h3
      cases hk
      exact ⟨_, _, rfl, rfl⟩
    · cases hk
      simp only [recognized, List.mem_cons, List.mem_singleton, decide_eq_true_eq] at h4
      simp only [List.not_mem_nil, or_false] at h4
      rcases h4 with rfl | rfl | rfl | rfl | rfl | rfl | rfl | rfl | rfl | rfl | rfl | rfl | rfl
      all_goals first
        | exact ⟨_, _, rfl, rfl⟩
        | exact absurd rfl h1
        | exact absurd rfl h2
        | exact absurd rfl h3

/-- The count read off the input follows the interactions that
`nextUserInteraction` returns. -/
theorem interactionsBeforeQuit_next :
    ∀ (keys : List Keypress) (h : Heap C) (i : UserInteraction) (rest : List Keypress)
      (h' : Heap C), nextUserInteraction K newAddr keys h = some (i, rest, h') →
      interactionsBeforeQuit keys =
        if i.type = UserInteractionType.quit then some 0
        else (interactionsBeforeQuit rest).map (fun n => n + 1) := by
  intro keys
  induction keys with
  | nil => intro h i rest h' hn; simp [nextUserInteraction] at hn
  | cons key keys ih =>
    intro h i rest h' hn
    cases hk : keyType key with
    | none =>
      rw [keyType_none K newAddr key hk keys h] at hn
      simp only [interactionsBeforeQuit, hk]
      exact ih h i rest h' hn
    | some ty =>
      obtain ⟨j, g, hj, hty⟩ := keyType_some K newAddr key ty hk keys h
      rw [hj] at hn
      simp only [Option.some.injEq, Prod.mk.injEq] at hn
      obtain ⟨rfl, rfl, rfl⟩ := hn
      subst hty
      cases hjt : j.type <;> simp [interactionsBeforeQuit, hk, hjt]

theorem interactionsBeforeQuit_none :
    ∀ (keys : List Keypress) (h : Heap C), nextUserInteraction K newAddr keys h = none →
      interactionsBeforeQuit keys = none := by
  intro keys
  induction keys with
  | nil => intro h _; rfl
  | cons key keys ih =>
    intro h hn
    cases hk : keyType key with
    | none =>
      rw [keyType_none K newAddr key hk keys h] at hn
      simp only [interactionsBeforeQuit, hk]
      exact ih h hn
    | some ty =>
      obtain ⟨j, g, hj, _⟩ := keyType_some K newAddr key ty hk keys h
      rw [hj] at hn
      cases hn

theorem length_withRefresh (firsts : List ViewCall) :
    (withRefresh firsts).length = 2 * firsts.length := by
  induction firsts with
  | nil => rfl
  | cons c cs ih =>
    simp only [withRefresh, List.length_cons, ih]
    omega

/-- The loop on an input that holds a quit, from a state that respects the
ownership discipline: either it returns, having made two presentation calls
for each of the interactions that the input gives before its first quit, or
an exception leaves it. -/
theorem resume_to_quit (hfresh : newAddr.Fresh) :
    ∀ (n : Nat) (keys : List Keypress), keys.length = n → ∀ (s : State C E) (m : Nat),
      Owned s → interactionsBeforeQuit keys = some m →
      (∃ (sf : State C E) (firsts : List ViewCall),
        resume K newAddr s keys = RunResult.returned sf ∧ firsts.length = m ∧
        (∀ c ∈ firsts, c = ViewCall.clearErrorMessage ∨ ∃ msg, c = ViewCall.showErrorMessage msg) ∧
        sf.view = s.view ++ withRefresh firsts) ∨
      (∃ (reason : String) (s' : State C E),
        resume K newAddr s keys = RunResult.threw reason s') := by
  intro n
  induction n using Nat.strong_induction_on with
  | _ n ih =>
    intro keys hlen s m hs hm
    cases hn : nextUserInteraction K newAddr keys s.heap with
    | none =>
      rw [interactionsBeforeQuit_none K newAddr keys s.heap hn] at hm
      cases hm
    | some r =>
      obtain ⟨i, rest, h⟩ := r
      have hl := nextUserInteraction_length K newAddr keys s.heap i rest h hn
      have hcount := interactionsBeforeQuit_next K newAddr keys s.heap i rest h hn
      rw [hm] at hcount
      rw [resume_pass K newAddr s keys rest i h hn]
      by_cases hq : i.type = UserInteractionType.quit
      · rw [if_pos hq] at hcount
        have hm0 : m = 0 := Option.some.inj hcount
        have hheap : h = s.heap := by
          rcases nextUserInteraction_cases K newAddr keys s.heap i rest h hn with
            ⟨hh, _, _⟩ | ⟨cls, hi, _⟩
          · exact hh
          · rw [hi] at hq
            cases hq
        subst hheap
        have hb : loopBody K { s with heap := s.heap } i = Outcome.exit s := by
          simp [loopBody, hq]
        rw [hb]
        obtain ⟨h', hd, _, _⟩ := drain_owned s hs
        exact Or.inl ⟨_, [], hd, hm0.symm, by simp, by simp [withRefresh]⟩
      · rw [if_neg hq] at hcount
        obtain ⟨m', hm', hmm⟩ : ∃ m', interactionsBeforeQuit rest = some m' ∧ m = m' + 1 := by
          cases hr : interactionsBeforeQuit rest with
          | none => rw [hr] at hcount; cases hcount
          | some m' =>
            rw [hr] at hcount
            exact ⟨m', rfl, Option.some.inj hcount⟩
        obtain ⟨s', hb, _, _⟩ := pass_shuffles_or_grows K newAddr hfresh s hs keys rest i h hn hq
        rcases hb with hb | ⟨reason, hb⟩
        · rw [hb]
          have hs' := owned_pass K newAddr hfresh s s' keys rest i h hs hn hb
          obtain ⟨c, hc, hv⟩ := loopBody_next_view K _ s' i hb
          rcases ih rest.length (by omega) rest rfl s' m' hs' hm' with
            ⟨sf, firsts, hk, hlen', hall, hview⟩ | ⟨reason, sx, hk⟩
          · refine Or.inl ⟨sf, c :: firsts, hk, by simp [hlen', hmm], ?_, ?_⟩
            · intro x hx
              rcases List.mem_cons.mp hx with rfl | hx
              · exact hc
              · exact hall x hx
            · rw [hview, hv]
              simp [withRefresh]
          · exact Or.inr ⟨reason, sx, hk⟩
        · rw [hb]
          exact Or.inr ⟨reason, s', rfl⟩

/-- C15: when the keypresses give `n` interactions other than quit before their
first quit and no exception leaves `run`, then `run` returns and the view has
received from it one `refresh` first and then, for each of the `n`
interactions, a `showErrorMessage` or `clearErrorMessage` followed by a
`refresh`, and nothing else: `n + 1` calls of `refresh` in all, for the `n`
passes that the loop made.  The quit itself, in whatever state it is read,
adds no presentation call. -/
theorem refresh_discipline (hfresh : newAddr.Fresh) :
    (∀ (editor : E) (view : List ViewCall) (heap : Heap C) (keys : List Keypress) (n : Nat),
      interactionsBeforeQuit keys = some n →
      (∀ reason s, run K newAddr editor view heap keys ≠ RunResult.threw reason s) →
      ∃ (sf : State C E) (firsts : List ViewCall),
        run K newAddr editor view heap keys = RunResult.returned sf ∧
        firsts.length = n ∧
        (∀ c ∈ firsts, c = ViewCall.clearErrorMessage ∨ ∃ m, c = ViewCall.showErrorMessage m) ∧
        sf.view = view ++ ViewCall.refresh :: withRefresh firsts ∧
        sf.view.count ViewCall.refresh = view.count ViewCall.refresh + (n + 1) ∧
        handled K newAddr editor view heap keys = n) ∧
    (∀ (s sf : State C E) (more : List Keypress),
      resume K newAddr s (quitKey :: more) = RunResult.returned sf → sf.view = s.view) := by
  constructor
  · intro editor view heap keys n hn hno
    rcases resume_to_quit K newAddr hfresh keys.length keys rfl (start editor view heap) n
        (owned_start editor view heap) hn with
      ⟨sf, firsts, hk, hlen, hall, hview⟩ | ⟨reason, s', hk⟩
    · have hview' : sf.view = view ++ ViewCall.refresh :: withRefresh firsts := by
        rw [hview]
        simp [start]
      obtain ⟨firsts2, hlen2, _, hview2⟩ :=
        runLoop_returned_view K newAddr (keys.length + 1) (start editor view heap) sf keys hk
      have hsame : withRefresh firsts = withRefresh firsts2 :=
        List.append_cancel_left (hview.symm.trans hview2)
      have hlens : firsts.length = firsts2.length := by
        have h2 := congrArg List.length hsame
        rw [length_withRefresh, length_withRefresh] at h2
        omega
      refine ⟨sf, firsts, hk, hlen, hall, hview', ?_, ?_⟩
      · rw [hview', List.count_append, List.count_cons_self, count_withRefresh firsts hall, hlen]
      · show (history K newAddr (keys.length + 1) (start editor view heap) keys).length = n
        rw [← hlen2, ← hlens, hlen]
    · exact absurd hk (hno reason s')
  · intro s sf more hk
    rw [resume_pass K newAddr s _ more _ s.heap
      (nextUserInteraction_quitKey K newAddr more s.heap)] at hk
    exact (drain_view _ sf hk).1

end CommandProcessor

/-- Instance of C15: a failing Ctrl+U, then `a`, an undo and a quit; the `b` that
follows the quit is never read. -/
theorem CommandProcessor.refresh_discipline_witness :
    (bumpAllocator : Allocator LineCommand).Fresh ∧
    interactionsBeforeQuit
        [{ ctrl := true, c := 'U' }, { ctrl := false, c := 'a' }, undoKey, quitKey,
          { ctrl := false, c := 'b' }] = some 3 ∧
    (∀ reason s,
      CommandProcessor.run lineCommands bumpAllocator LineEditor.blank [] Heap.empty
        [{ ctrl := true, c := 'U' }, { ctrl := false, c := 'a' }, undoKey, quitKey,
          { ctrl := false, c := 'b' }] ≠ CommandProcessor.RunResult.threw reason s) ∧
    ∃ (sf : State LineCommand LineEditor) (firsts : List ViewCall),
      CommandProcessor.run lineCommands bumpAllocator LineEditor.blank [] Heap.empty
        [{ ctrl := true, c := 'U' }, { ctrl := false, c := 'a' }, undoKey, quitKey,
          { ctrl := false, c := 'b' }] = CommandProcessor.RunResult.returned sf ∧
      firsts.length = 3 ∧
      sf.view = [] ++ ViewCall.refresh :: withRefresh firsts ∧
      sf.view.count ViewCall.refresh = List.count ViewCall.refresh [] + (3 + 1) :=
  have hno : ∀ reason s,
      CommandProcessor.run lineCommands bumpAllocator LineEditor.blank [] Heap.empty
        [{ ctrl := true, c := 'U' }, { ctrl := false, c := 'a' }, undoKey, quitKey,
          { ctrl := false, c := 'b' }] ≠ CommandProcessor.RunResult.threw reason s :=
    fun _ _ h => CommandProcessor.RunResult.noConfusion h
  ⟨CommandProcessor.bumpAllocator_fresh, rfl, hno,
    match (CommandProcessor.refresh_discipline lineCommands bumpAllocator
      CommandProcessor.bumpAllocator_fresh).1 LineEditor.blank [] Heap.empty
      [{ ctrl := true, c := 'U' }, { ctrl := false, c := 'a' }, undoKey, quitKey,
        { ctrl := false, c := 'b' }] 3 rfl hno with
    | ⟨sf, firsts, hk, hlen, _, hview, hcount, _⟩ => ⟨sf, firsts, hk, hlen, hview, hcount⟩⟩

/-! ## Unwinding any history (C16) -/

namespace CommandProcessor

variable {C E : Type} (K : CommandClasses C E) (newAddr : Allocator C)

/-- Allocating a new object and writing to it is invisible through the entries
of the stacks. -/
theorem fresh_agree (s : State C E) (hs : Owned s) (p : Ptr) (c c' : C)
    (hp : p ∉ s.heap.addrs) :
    ∀ i ∈ s.undoStack, ∀ q, i.command = some q →
      ((s.heap.alloc p c).store p c').deref q = s.heap.deref q := by
  intro i hi q hq
  obtain ⟨q', hq', hl⟩ := hs.live i (List.mem_append_left _ hi)
  rw [hq] at hq'
  cases hq'
  have hne : q ≠ p := by
    rintro rfl
    exact hp hl
  simp [Heap.deref_store, Heap.deref_alloc, hne]

/-- Every pass of the loop that runs to its end keeps the history recorded by
the undo stack, when `undo` is exact and a failing `execute` leaves the
document alone. -/
theorem trail_pass (hfresh : newAddr.Fresh) (hexact : UndoExact K) (hkeep : FailureKeeps K)
    (d : E) (s s' : State C E) (keys rest : List Keypress) (i : UserInteraction) (h : Heap C)
    (hs : Owned s) (ht : Trail K s.heap s.undoStack s.editor d)
    (hn : nextUserInteraction K newAddr keys s.heap = some (i, rest, h))
    (hb : loopBody K { s with heap := h } i = Outcome.next s') :
    Trail K s'.heap s'.undoStack s'.editor d := by
  rcases nextUserInteraction_cases K newAddr keys s.heap i rest h hn with
    ⟨rfl, _, hty⟩ | ⟨cls, rfl, rfl⟩
  · have hsame : ({ s with heap := s.heap } : State C E) = s := rfl
    rw [hsame] at hb
    cases hty' : i.type with
    | command => exact absurd hty' hty
    | quit => simp [loopBody, hty'] at hb
    | undo =>
      have hshape : s.undoStack = [] ∨ ∃ t below, s.undoStack = t :: below := by
        cases s.undoStack with
        | nil => exact Or.inl rfl
        | cons t below => exact Or.inr ⟨t, below, rfl⟩
      rcases hshape with hu | ⟨t, below, hu⟩
      · rw [loopBody_undo_empty K s i hty' hu] at hb
        cases hb
        exact ht
      · rw [hu] at ht
        obtain ⟨p, obj', obj0, e0, hp, ho, hx, hrest⟩ := ht
        rw [loopBody_undo_cons K s i t below p obj' hty' hu hp ho] at hb
        cases hb
        have hnodup := hs.nodup
        rw [hu] at hnodup
        simp only [List.cons_append, List.map_cons, List.nodup_cons, hp] at hnodup
        have hpnot : some p ∉ below.map (fun i => i.command) := by
          intro hmem
          apply hnodup.1
          simp only [List.map_append, List.mem_append]
          exact Or.inl hmem
        show Trail K (s.heap.store p (K.undo obj' s.editor).1) below (K.undo obj' s.editor).2 d
        rw [hexact obj0 e0 obj' s.editor hx]
        exact trail_frame K (store_agree s.heap p _ below hpnot) hrest
    | redo =>
      have hshape : s.redoStack = [] ∨ ∃ t below, s.redoStack = t :: below := by
        cases s.redoStack with
        | nil => exact Or.inl rfl
        | cons t below => exact Or.inr ⟨t, below, rfl⟩
      rcases hshape with hr | ⟨t, below, hr⟩
      · rw [loopBody_redo_empty K s i hty' hr] at hb
        cases hb
        exact ht
      · obtain ⟨p, obj, hp, ho⟩ := hs.deref_some t (by simp [hr])
        cases hx : K.execute obj s.editor with
        | threw reason obj' e' =>
          rw [loopBody_redo_threw K s i t below p obj obj' e' reason hty' hr hp ho hx] at hb
          cases hb
        | returned obj' e' =>
          rw [loopBody_redo_returned K s i t below p obj obj' e' hty' hr hp ho hx] at hb
          cases hb
          have hnodup := hs.nodup
          rw [hr, List.map_append, List.map_cons, hp] at hnodup
          have hpnot : some p ∉ s.undoStack.map (fun i => i.command) := by
            intro hmem
            have hdis := (List.nodup_append.mp hnodup).2.2
            exact hdis hmem (List.mem_cons_self _ _)
          refine ⟨p, obj', obj, s.editor, hp, ?_, hx, ?_⟩
          · simp [Heap.deref_store, ho]
          · exact trail_frame K (store_agree s.heap p _ s.undoStack hpnot) ht
  · have ho : (s.heap.alloc (newAddr s.heap) (K.construct cls)).deref (newAddr s.heap)
        = some (K.construct cls) := by simp [Heap.deref_alloc]
    cases hx : K.execute (K.construct cls) s.editor with
    | returned obj' e' =>
      rw [loopBody_command_returned K
        { s with heap := s.heap.alloc (newAddr s.heap) (K.construct cls) }
        (makeCommandInteraction (some (newAddr s.heap))) (newAddr s.heap) (K.construct cls)
        obj' e' rfl rfl ho hx] at hb
      cases hb
      refine ⟨newAddr s.heap, obj', K.construct cls, s.editor, rfl, ?_, hx, ?_⟩
      · simp [Heap.deref_store, Heap.deref_alloc]
      · exact trail_frame K (fresh_agree s hs _ _ _ (hfresh s.heap)) ht
    | threw reason obj' e' =>
      rw [loopBody_command_threw K
        { s with heap := s.heap.alloc (newAddr s.heap) (K.construct cls) }
        (makeCommandInteraction (some (newAddr s.heap))) (newAddr s.heap) (K.construct cls)
        obj' e' reason rfl rfl ho hx] at hb
      cases hb
      have he : e' = s.editor := hkeep _ _ _ _ _ hx
      subst he
      exact trail_frame K (fresh_agree s hs _ _ _ (hfresh s.heap)) ht

end CommandProcessor

namespace CommandProcessor

variable {C E : Type} (K : CommandClasses C E) (newAddr : Allocator C)

theorem trail_resume (hfresh : newAddr.Fresh) (hexact : UndoExact K) (hkeep : FailureKeeps K)
    (d : E) :
    ∀ (n : Nat) (keys : List Keypress), keys.length = n → ∀ (s s' : State C E), Owned s →
      Trail K s.heap s.undoStack s.editor d →
      resume K newAddr s keys = RunResult.awaiting s' →
      Owned s' ∧ Trail K s'.heap s'.undoStack s'.editor d := by
  intro n
  induction n using Nat.strong_induction_on with
  | _ n ih =>
    intro keys hlen s s' hs ht hk
    cases hn : nextUserInteraction K newAddr keys s.heap with
    | none =>
      simp only [resume, runLoop, hn] at hk
      cases hk
      exact ⟨hs, ht⟩
    | some r =>
      obtain ⟨i, rest, h⟩ := r
      have hl := nextUserInteraction_length K newAddr keys s.heap i rest h hn
      rw [resume_pass K newAddr s keys rest i h hn] at hk
      cases hb : loopBody K { s with heap := h } i with
      | next s1 =>
        rw [hb] at hk
        exact ih rest.length (by omega) rest rfl s1 s'
          (owned_pass K newAddr hfresh s s1 keys rest i h hs hn hb)
          (trail_pass K newAddr hfresh hexact hkeep d s s1 keys rest i h hs ht hn hb) hk
      | exit s1 =>
        rw [hb] at hk
        exact absurd hk (drain_ne_awaiting s1 s')
      | threw r s1 =>
        rw [hb] at hk
        simp at hk
      | undefined =>
        rw [hb] at hk
        simp at hk

/-- C16 (amended): from a fresh run on document `d`, after any keypresses that
leave the loop waiting (any mix of commands, failed or not, undos and redos, no
redo having failed), as many undos as the undo stack has entries bring the
document back to `d` and empty the undo stack, provided `undo` exactly reverses
the last successful `execute` of its command and a failing `execute` leaves the
document as it found it. -/
theorem unwind_returns_to_start (hfresh : newAddr.Fresh) (hexact : UndoExact K)
    (hkeep : FailureKeeps K) (d : E) (view : List ViewCall) (heap : Heap C)
    (keys : List Keypress) (s : State C E)
    (hk : run K newAddr d view heap keys = RunResult.awaiting s) :
    ∃ s' : State C E,
      run K newAddr d view heap (keys ++ List.replicate s.undoStack.length undoKey)
        = RunResult.awaiting s' ∧
      s'.editor = d ∧ s'.undoStack = [] ∧
      s'.redoStack = s.undoStack.reverse ++ s.redoStack := by
  obtain ⟨hs, ht⟩ := trail_resume K newAddr hfresh hexact hkeep d keys.length keys rfl
    (start d view heap) s (owned_start d view heap) rfl hk
  obtain ⟨s', hk', hd, hu, hr, _, _⟩ :=
    resume_undos K newAddr hexact s.undoStack s [] d hs (by simp) ht
  refine ⟨s', ?_, hd, hu, hr⟩
  rw [run, resume_append K newAddr keys.length keys rfl _ s _ hk]
  exact hk'

end CommandProcessor

theorem lineCommands_failureKeeps : FailureKeeps lineCommands := by
  intro obj e reason obj' e' hx
  simp only [lineCommands] at hx
  split at hx
  · cases hx
  · split at hx
    · cases hx
      rfl
    · cases hx
  · cases hx
    rfl

theorem counterCommands_undoExact : UndoExact counterCommands := by
  intro obj e obj' e' hx
  simp only [counterCommands] at hx ⊢
  split at hx
  · cases hx
    simp
  · cases hx

/-- C16 as stated fails: `undo` of the counter commands exactly reverses
`execute`, yet a single failing command, Ctrl+U, leaves the document at 100 with
an empty undo stack, so that the zero further undos do not bring back the
document 0 of the start. -/
theorem CommandProcessor.unwind_fails_after_failed_command :
    UndoExact counterCommands ∧
    ∃ s s' : State CommandClass Nat,
      CommandProcessor.run counterCommands bumpAllocator 0 [] Heap.empty
        [{ ctrl := true, c := 'U' }] = CommandProcessor.RunResult.awaiting s ∧
      s.undoStack.length = 0 ∧
      CommandProcessor.run counterCommands bumpAllocator 0 [] Heap.empty
        ([{ ctrl := true, c := 'U' }] ++ List.replicate s.undoStack.length undoKey)
        = CommandProcessor.RunResult.awaiting s' ∧
      s'.editor = 100 ∧ s'.editor ≠ 0 :=
  ⟨counterCommands_undoExact, _, _, rfl, rfl, rfl, rfl, by decide⟩

/-- Instance of C16: a failing Ctrl+U, `a`, an undo, `b` and a redo of `a` on the
changed document; two undos then bring the blank document back. -/
theorem CommandProcessor.unwind_returns_to_start_witness :
    (bumpAllocator : Allocator LineCommand).Fresh ∧ UndoExact lineCommands ∧
    FailureKeeps lineCommands ∧
    CommandProcessor.run lineCommands bumpAllocator LineEditor.blank [] Heap.empty
        [{ ctrl := true, c := 'U' }, { ctrl := false, c := 'a' }, undoKey,
          { ctrl := false, c := 'b' }, redoKey]
      = CommandProcessor.RunResult.awaiting LineEditor.afterRedo ∧
    ∃ s' : State LineCommand LineEditor,
      CommandProcessor.run lineCommands bumpAllocator LineEditor.blank [] Heap.empty
          ([{ ctrl := true, c := 'U' }, { ctrl := false, c := 'a' }, undoKey,
              { ctrl := false, c := 'b' }, redoKey] ++
            List.replicate LineEditor.afterRedo.undoStack.length undoKey)
        = CommandProcessor.RunResult.awaiting s' ∧
      s'.editor = LineEditor.blank ∧ s'.undoStack = [] ∧
      s'.redoStack = LineEditor.afterRedo.undoStack.reverse ++ LineEditor.afterRedo.redoStack :=
  ⟨CommandProcessor.bumpAllocator_fresh, lineCommands_undoExact, lineCommands_failureKeeps, rfl,
    CommandProcessor.unwind_returns_to_start lineCommands bumpAllocator
      CommandProcessor.bumpAllocator_fresh lineCommands_undoExact lineCommands_failureKeeps
      LineEditor.blank [] Heap.empty
      [{ ctrl := true, c := 'U' }, { ctrl := false, c := 'a' }, undoKey,
        { ctrl := false, c := 'b' }, redoKey] LineEditor.afterRedo rfl⟩

/-! ## Undo and redo as inverse steps (C17) -/

namespace CommandProcessor

variable {C E : Type} (K : CommandClasses C E) (newAddr : Allocator C)

/-- C17 (amended): in every state the loop can be in with a non-empty undo
stack, an undo followed at once by a redo leaves both stacks exactly as they
were, and the document too when `execute`, called after the undo, gives the
document of before the undo.  With a non-empty redo stack whose top command
executes normally, a redo followed at once by an undo leaves both stacks
exactly as they were, and the document too when `undo`, called after the
`execute`, gives the document of before the redo, as it does when `undo`
exactly reverses `execute`. -/
theorem undo_redo_inverse (hfresh : newAddr.Fresh) (s : State C E)
    (hs : Reachable K newAddr s) (t : UserInteraction) (rest : List UserInteraction) :
    (s.undoStack = t :: rest →
      ∃ p obj, t.command = some p ∧ s.heap.deref p = some obj ∧
        ∃ s1 s2 : State C E,
          loopBody K s makeUndoInteraction = Outcome.next s1 ∧
          (loopBody K s1 makeRedoInteraction = Outcome.next s2 ∨
            ∃ reason, loopBody K s1 makeRedoInteraction = Outcome.threw reason s2) ∧
          s2.undoStack = s.undoStack ∧ s2.redoStack = s.redoStack ∧
          ((∃ obj2, K.execute (K.undo obj s.editor).1 (K.undo obj s.editor).2
              = ExecResult.returned obj2 s.editor) →
            loopBody K s1 makeRedoInteraction = Outcome.next s2 ∧ s2.editor = s.editor)) ∧
    (s.redoStack = t :: rest →
      ∃ p obj, t.command = some p ∧ s.heap.deref p = some obj ∧
        ∀ obj' e', K.execute obj s.editor = ExecResult.returned obj' e' →
          ∃ s1 s2 : State C E,
            loopBody K s makeRedoInteraction = Outcome.next s1 ∧
            loopBody K s1 makeUndoInteraction = Outcome.next s2 ∧
            s2.undoStack = s.undoStack ∧ s2.redoStack = s.redoStack ∧
            s2.editor = (K.undo obj' e').2 ∧
            (UndoExact K → s2.editor = s.editor)) := by
  have hown := hs.owned K newAddr hfresh
  constructor
  · intro hu
    obtain ⟨p, obj, hp, ho⟩ := hown.deref_some t (by simp [hu])
    refine ⟨p, obj, hp, ho, ?_⟩
    have hb1 := loopBody_undo_cons K s makeUndoInteraction t rest p obj rfl hu hp ho
    have ho1 : (s.heap.store p (K.undo obj s.editor).1).deref p = some (K.undo obj s.editor).1 := by
      simp [Heap.deref_store, ho]
    cases hx : K.execute (K.undo obj s.editor).1 (K.undo obj s.editor).2 with
    | returned obj2 e2 =>
      have hb2 := loopBody_redo_returned K
        { editor := (K.undo obj s.editor).2
          view := s.view ++ [ViewCall.clearErrorMessage, ViewCall.refresh]
          heap := s.heap.store p (K.undo obj s.editor).1
          undoStack := rest
          redoStack := t :: s.redoStack }
        makeRedoInteraction t s.redoStack p (K.undo obj s.editor).1 obj2 e2 rfl rfl hp ho1 hx
      refine ⟨_, _, hb1, Or.inl hb2, hu.symm, rfl, ?_⟩
      rintro ⟨obj3, h3⟩
      cases h3
      exact ⟨hb2, rfl⟩
    | threw reason obj2 e2 =>
      have hb2 := loopBody_redo_threw K
        { editor := (K.undo obj s.editor).2
          view := s.view ++ [ViewCall.clearErrorMessage, ViewCall.refresh]
          heap := s.heap.store p (K.undo obj s.editor).1
          undoStack := rest
          redoStack := t :: s.redoStack }
        makeRedoInteraction t s.redoStack p (K.undo obj s.editor).1 obj2 e2 reason rfl rfl hp
        ho1 hx
      refine ⟨_, _, hb1, Or.inr ⟨reason, hb2⟩, hu.symm, rfl, ?_⟩
      rintro ⟨obj3, h3⟩
      cases h3
  · intro hr
    obtain ⟨p, obj, hp, ho⟩ := hown.deref_some t (by simp [hr])
    refine ⟨p, obj, hp, ho, ?_⟩
    intro obj' e' hx
    have hb1 := loopBody_redo_returned K s makeRedoInteraction t rest p obj obj' e' rfl hr hp
      ho hx
    have ho1 : (s.heap.store p obj').deref p = some obj' := by
      simp [Heap.deref_store, ho]
    have hb2 := loopBody_undo_cons K
      { editor := e'
        view := s.view ++ [ViewCall.clearErrorMessage, ViewCall.refresh]
        heap := s.heap.store p obj'
        undoStack := t :: s.undoStack
        redoStack := rest }
      makeUndoInteraction t s.undoStack p obj' rfl rfl hp ho1
    exact ⟨_, _, hb1, hb2, rfl, hr.symm, rfl, fun hexact => hexact obj s.editor obj' e' hx⟩

end CommandProcessor

/-- C17 as stated fails: after `a`, Ctrl+U, Ctrl+Z and Ctrl+U the undo stack holds
the commands at 3 and 1 and the redo stack the `CursorLeft` at 2.  A redo
followed by an undo does not restore them: the redo's `execute` throws at
column 0 after the entry was moved, no pass runs to its end, and `run` ends
with the undo stack holding 2, 3, 1 and an empty redo stack. -/
theorem CommandProcessor.redo_undo_not_inverse :
    ∃ s s' : State LineCommand LineEditor,
      CommandProcessor.run lineCommands bumpAllocator LineEditor.blank [] Heap.empty
        [{ ctrl := false, c := 'a' }, { ctrl := true, c := 'U' }, undoKey,
          { ctrl := true, c := 'U' }] = CommandProcessor.RunResult.awaiting s ∧
      s.undoStack = [makeCommandInteraction (some 3), makeCommandInteraction (some 1)] ∧
      s.redoStack = [makeCommandInteraction (some 2)] ∧
      (∀ s1, CommandProcessor.loopBody lineCommands s makeRedoInteraction ≠ Outcome.next s1) ∧
      CommandProcessor.resume lineCommands bumpAllocator s [redoKey, undoKey]
        = CommandProcessor.RunResult.threw "Already at beginning" s' ∧
      s'.undoStack = [makeCommandInteraction (some 2), makeCommandInteraction (some 3),
        makeCommandInteraction (some 1)] ∧
      s'.redoStack = [] :=
  ⟨_, _, rfl, rfl, rfl, fun _ h => Outcome.noConfusion h, rfl, rfl, rfl⟩

/-- Instance of C17: in the state after `a`, `b` and an undo, an undo followed by
a redo, and a redo followed by an undo. -/
theorem CommandProcessor.undo_redo_inverse_witness :
    (bumpAllocator : Allocator LineCommand).Fresh ∧
    CommandProcessor.Reachable lineCommands bumpAllocator LineEditor.afterUndo ∧
    LineEditor.afterUndo.undoStack = [makeCommandInteraction (some 1)] ∧
    (∃ p obj, (makeCommandInteraction (some 1)).command = some p ∧
      LineEditor.afterUndo.heap.deref p = some obj ∧
      ∃ s1 s2 : State LineCommand LineEditor,
        CommandProcessor.loopBody lineCommands LineEditor.afterUndo makeUndoInteraction
          = Outcome.next s1 ∧
        (CommandProcessor.loopBody lineCommands s1 makeRedoInteraction = Outcome.next s2 ∨
          ∃ reason, CommandProcessor.loopBody lineCommands s1 makeRedoInteraction
            = Outcome.threw reason s2) ∧
        s2.undoStack = LineEditor.afterUndo.undoStack ∧
        s2.redoStack = LineEditor.afterUndo.redoStack ∧
        ((∃ obj2, lineCommands.execute (lineCommands.undo obj LineEditor.afterUndo.editor).1
            (lineCommands.undo obj LineEditor.afterUndo.editor).2
              = ExecResult.returned obj2 LineEditor.afterUndo.editor) →
          CommandProcessor.loopBody lineCommands s1 makeRedoInteraction = Outcome.next s2 ∧
            s2.editor = LineEditor.afterUndo.editor)) ∧
    LineEditor.afterUndo.redoStack = [makeCommandInteraction (some 2)] ∧
    lineCommands.execute { cls := CommandClass.InsertChar 'b', saved := none }
        LineEditor.afterUndo.editor
      = ExecResult.returned
          { cls := CommandClass.InsertChar 'b', saved := some LineEditor.afterUndo.editor }
          { text := ['a', 'b'], column := 2 } ∧
    UndoExact lineCommands ∧
    ∃ s1 s2 : State LineCommand LineEditor,
      CommandProcessor.loopBody lineCommands LineEditor.afterUndo makeRedoInteraction
        = Outcome.next s1 ∧
      CommandProcessor.loopBody lineCommands s1 makeUndoInteraction = Outcome.next s2 ∧
      s2.undoStack = LineEditor.afterUndo.undoStack ∧
      s2.redoStack = LineEditor.afterUndo.redoStack ∧
      s2.editor = LineEditor.afterUndo.editor :=
  ⟨CommandProcessor.bumpAllocator_fresh, CommandProcessor.reachable_afterUndo, rfl,
    (CommandProcessor.undo_redo_inverse lineCommands bumpAllocator
      CommandProcessor.bumpAllocator_fresh LineEditor.afterUndo
      CommandProcessor.reachable_afterUndo (makeCommandInteraction (some 1)) []).1 rfl,
    rfl, rfl, lineCommands_undoExact,
    by
      obtain ⟨p, obj, hp, ho, hstep⟩ :=
        (CommandProcessor.undo_redo_inverse lineCommands bumpAllocator
          CommandProcessor.bumpAllocator_fresh LineEditor.afterUndo
          CommandProcessor.reachable_afterUndo (makeCommandInteraction (some 2)) []).2 rfl
      have hp2 : 2 = p := Option.some.inj hp
      subst hp2
      have ho2 : some ({ cls := CommandClass.InsertChar 'b', saved := none } : LineCommand)
          = some obj := ho
      have hobj := Option.some.inj ho2
      subst hobj
      obtain ⟨s1, s2, h1, h2, hu, hr, _, he⟩ := hstep _ _ rfl
      exact ⟨s1, s2, h1, h2, hu, hr, he lineCommands_undoExact⟩⟩
